import Mathlib

/-!
Verification of the notification-cycle engine of the `gclick` repository.

The Python sources are shallowly embedded: machine dates (`datetime.date`)
are modelled as proleptic-Gregorian day numbers (`Int`) or as explicit
year/month/day triples (`YMD`) where the code formats or parses them;
wall-clock instants (`time.time()`, `datetime.now()`) are passed as explicit
parameters; fallible operations return `Option`.  Every definition is
translated from the corresponding Python function, which is named in its
doc comment.
-/

set_option maxHeartbeats 1000000
set_option maxRecDepth 8000

namespace GClick

/-! ## Calendar dates

Python `datetime.date` is a proleptic Gregorian date with year 1..9999.
`YMD` is the triple form; `daysFromCivil` converts a triple to the day
number (days since 1970-01-01), which models `date` subtraction
(`(a - b).days = daysFromCivil a - daysFromCivil b`) and comparison. -/

structure YMD where
  y : Nat
  m : Nat
  d : Nat
deriving DecidableEq

/-- Gregorian leap-year rule, as used by `datetime.date` and `calendar`. -/
def isLeapYear (y : Nat) : Bool :=
  (y % 4 == 0 && y % 100 != 0) || y % 400 == 0

/-- Number of days in a month of a given year (Gregorian). -/
def daysInMonth (y m : Nat) : Nat :=
  if m = 2 then (if isLeapYear y then 29 else 28)
  else if m = 4 ∨ m = 6 ∨ m = 9 ∨ m = 11 then 30
  else 31

/-- Validity of a date triple: the range accepted by `datetime.date(y, m, d)`
(`ValueError` outside it). -/
def validYMD (t : YMD) : Bool :=
  1 ≤ t.y && t.y ≤ 9999 && 1 ≤ t.m && t.m ≤ 12 && 1 ≤ t.d && t.d ≤ daysInMonth t.y t.m

/-- The previous calendar day of a triple (models `t - timedelta(days=1)`). -/
def prevDay (t : YMD) : YMD :=
  if 2 ≤ t.d then ⟨t.y, t.m, t.d - 1⟩
  else if 2 ≤ t.m then ⟨t.y, t.m - 1, daysInMonth t.y (t.m - 1)⟩
  else ⟨t.y - 1, 12, 31⟩

/-- Subtraction of whole days on triples (models `t - timedelta(days=n)`). -/
def subDays (t : YMD) : Nat → YMD
  | 0 => t
  | n + 1 => subDays (prevDay t) n

/-- Day number of a civil date (days since 1970-01-01), the standard
days-from-civil computation; it realises `datetime.date` ordering and
`timedelta` arithmetic on day numbers. -/
def daysFromCivil (t : YMD) : Int :=
  let y' := t.y - (if t.m ≤ 2 then 1 else 0)
  let era := y' / 400
  let yoe := y' % 400
  let mp := if 2 < t.m then t.m - 3 else t.m + 9
  let doy := (153 * mp + 2) / 5 + t.d - 1
  let doe := yoe * 365 + yoe / 4 - yoe / 100 + doy
  ((era * 146097 + doe : Nat) : Int) - 719468

/-- Decimal digit character of `n % 10`. -/
def digitChar (n : Nat) : Char := Char.ofNat (48 + n % 10)

/-- Two-digit zero-padded decimal rendering (`%m`, `%d` of `strftime`). -/
def pad2 (n : Nat) : List Char := [digitChar (n / 10), digitChar n]

/-- Four-digit zero-padded decimal rendering (`%Y` of `strftime` for the
years 1000..9999 that occur at runtime). -/
def pad4 (n : Nat) : List Char := [digitChar (n / 1000), digitChar (n / 100), digitChar (n / 10), digitChar n]

/-- Rendering of a date triple as `YYYY-MM-DD`: models both
`strftime('%Y-%m-%d')` and `f"{data:%Y-%m-%d}"`. -/
def fmtYMD (t : YMD) : String :=
  ⟨pad4 t.y ++ '-' :: (pad2 t.m ++ '-' :: pad2 t.d)⟩

/-- Value of a decimal digit character, if it is one. -/
def digitVal? (c : Char) : Option Nat :=
  if 48 ≤ c.toNat ∧ c.toNat ≤ 57 then some (c.toNat - 48) else none

/-- Strict `YYYY-MM-DD` parsing into a validated triple.  This models both
`datetime.strptime(s, "%Y-%m-%d").date()` and `date.fromisoformat(s)`:
ten characters, two dashes, all fields numeric, and the triple must be a
real calendar date (otherwise `ValueError`).  (Python's `strptime` would
additionally accept unpadded fields; no claim depends on such strings.) -/
def parseYMDTriple (s : String) : Option YMD :=
  match s.data with
  | [a, b, c, d, h1, e, f, h2, g, h] =>
    if h1 = '-' ∧ h2 = '-' then
      match digitVal? a, digitVal? b, digitVal? c, digitVal? d,
            digitVal? e, digitVal? f, digitVal? g, digitVal? h with
      | some a', some b', some c', some d', some e', some f', some g', some h' =>
        let t : YMD := ⟨a' * 1000 + b' * 100 + c' * 10 + d', e' * 10 + f', g' * 10 + h'⟩
        if validYMD t then some t else none
      | _, _, _, _, _, _, _, _ => none
    else none
  | _ => none

/-- Strict `YYYY-MM-DD` parsing straight to a day number. -/
def parseYMD (s : String) : Option Int :=
  (parseYMDTriple s).map daysFromCivil

/-! ## Classifier (src/azure_functions/shared_code/engine/classification.py)

A task carries an optional pre-parsed due date (`_dt_dataVencimento`, here
a day number) and an optional raw string (`dataVencimento`). -/

structure TarefaC where
  dtParsed : Option Int
  dataVencimento : Option String
deriving DecidableEq

/-- Due date a task effectively resolves to: the pre-parsed field if
present, else the parse of the raw string.  (Mirrors the shared lookup
sequence at the top of `classificar_tarefa_individual`.) -/
def effectiveDue (t : TarefaC) : Option Int :=
  match t.dtParsed with
  | some dt => some dt
  | none => t.dataVencimento.bind parseYMD

/-- Embedding of `classificar_tarefa_individual(tarefa, hoje, dias_proximos=3)`
(classification.py, lines 78-126).  A parse failure takes the `except`
branch and returns `None`. -/
def classificar_tarefa_individual (t : TarefaC) (hoje : Int) (dias_proximos : Int := 3) :
    Option String :=
  match effectiveDue t with
  | none => none
  | some dt =>
    if dt < hoje - 1 then none
    else if dt < hoje then some "vencidas"
    else if dt = hoje then some "vence_hoje"
    else if dt ≤ hoje + dias_proximos then some "vence_em_3_dias"
    else none

/-- Embedding of `classificar(tarefa, hoje, dias_proximos)` from
`src/azure_functions/shared_code/engine/notification_engine.py` (lines
283-321), where `from .classification import classificar_tarefa_individual`
succeeds: it delegates to `classificar_tarefa_individual(tarefa, hoje)`
with the classifier's default window (3) and then re-checks the
`vence_em_3_dias` bucket against its own `dias_proximos` window by
re-parsing the raw string with `date.fromisoformat`.  The textually
identical function in `src/engine/notification_engine.py` behaves
differently at runtime and is embedded separately as `classificar_engine`
below. -/
def classificar (t : TarefaC) (hoje : Int) (dias_proximos : Int) : Option String :=
  match classificar_tarefa_individual t hoje with
  | none => none
  | some r =>
    if r = "vencidas" then some "vencidas"
    else if r = "vence_hoje" then some "vence_hoje"
    else if r = "vence_em_3_dias" then
      match t.dataVencimento with
      | some txt =>
        match parseYMD txt with
        | some dtv => if dtv ≤ hoje + dias_proximos then some "vence_em_3_dias" else none
        | none => none
      | none => none
    else some r

/-- Embedding of `classificar(tarefa, hoje, dias_proximos)` from
`src/engine/notification_engine.py` (lines 253-304) as it actually runs:
`from engine.classification import classificar_tarefa_individual` raises
`ImportError` on every call (`src/engine/classification.py` defines only
`classificar_por_vencimento` and `resumir_contagens`, and the local entry
points put only `src/` on `sys.path`), so the live path is the
`except ImportError` fallback (lines 286-304): read `dataVencimento`
(falsy strings are `None`-like), parse it with `date.fromisoformat`
(`None` on failure), and classify with the FULL `dias_proximos` window —
the pre-parsed `_dt_dataVencimento` field is never consulted. -/
def classificar_engine (t : TarefaC) (hoje : Int) (dias_proximos : Int) : Option String :=
  match t.dataVencimento with
  | none => none
  | some txt =>
    if txt = "" then none
    else
      match parseYMD txt with
      | none => none
      | some dt =>
        if dt < hoje - 1 then none
        else if dt < hoje then some "vencidas"
        else if dt = hoje then some "vence_hoje"
        else if dt ≤ hoje + dias_proximos then some "vence_em_3_dias"
        else none

/-- Reference classification written from the specification's words
(section 4.1 of the spec): more than 1 day overdue is ignored, exactly one
day overdue is `vencidas`, due today is `vence_hoje`, due within the
look-ahead window is `vence_em_3_dias`, anything else is ignored. -/
def bucketSpec (hoje w dv : Int) : Option String :=
  if dv < hoje - 1 then none
  else if dv = hoje - 1 then some "vencidas"
  else if dv = hoje then some "vence_hoje"
  else if hoje < dv ∧ dv ≤ hoje + w then some "vence_em_3_dias"
  else none

end GClick

namespace GClick

/-! ## Claims C2 and C3: the classifier -/

/-- Helper: full characterization of `classificar_tarefa_individual` against
the spec-shaped reference `bucketSpec`. -/
theorem classificar_individual_eq (t : TarefaC) (hoje w : Int) :
    classificar_tarefa_individual t hoje w = (effectiveDue t).bind (bucketSpec hoje w) := by
  unfold classificar_tarefa_individual bucketSpec
  cases h : effectiveDue t with
  | none => rfl
  | some dv =>
    simp only [Option.some_bind]
    split_ifs <;> first | rfl | omega

/-- C2.  Classifier contract: for every task, date `hoje` and look-ahead
window `w`, `classificar_tarefa_individual` is a pure function equal to the
spec-side case analysis `bucketSpec`: a due date more than one day before
`hoje` (and anything past the window) yields `none`, exactly one day before
yields `"vencidas"`, equal to `hoje` yields `"vence_hoje"`, strictly after
`hoje` and at most `hoje + w` yields `"vence_em_3_dias"`, and a missing or
unparseable due-date string (`effectiveDue t = none`) yields `none` rather
than an error. -/
theorem classifier_contract (t : TarefaC) (hoje w : Int) :
    classificar_tarefa_individual t hoje w =
      (match effectiveDue t with
       | none => none
       | some dv => bucketSpec hoje w dv) := by
  rw [classificar_individual_eq]
  cases effectiveDue t <;> rfl

/-- C3 (counterexample).  The claim "today < dv <= today + w implies the
classification used by the notification cycle returns DueSoon" fails as
stated for the `src/azure_functions/shared_code` implementation
(`classificar`): with `hoje = 20362` (2025-10-01), window `w = 4` and a
task due `"2025-10-05"` (day 20366, so `hoje < 20366 ≤ hoje + 4`),
`classificar` returns `none`, because its inner delegation classifies with
the default window 3. -/
theorem classificar_dueSoon_counterexample :
    parseYMD "2025-10-05" = some 20366 ∧
    (20362 : Int) < 20366 ∧ (20366 : Int) ≤ 20362 + 4 ∧ (1 : Int) ≤ 4 ∧
    classificar ⟨none, some "2025-10-05"⟩ 20362 4 ≠ some "vence_em_3_dias" := by
  refine ⟨by decide, by decide, by decide, by decide, by decide⟩

/-- C3 (amended).  The two notification-cycle implementations differ:
(1) in `src/engine/notification_engine.py` the import failure routes every
call through the fallback, so the claim holds there AS STATED — for every
task whose due-date string parses to `dv` and every window `w`, if
`hoje < dv ≤ hoje + w` then `classificar_engine` returns
`"vence_em_3_dias"`; (2) in the azure_functions copy the import succeeds
and the window is capped at the inner classifier's default of 3 days —
`classificar` returns `"vence_em_3_dias"` when `hoje < dv ≤ hoje + min w 3`
(and `none` beyond `hoje + 3`, per the counterexample). -/
theorem classificar_dueSoon_window :
    (∀ (t : TarefaC) (hoje w dv : Int) (s : String),
      t.dataVencimento = some s → parseYMD s = some dv →
      hoje < dv → dv ≤ hoje + w →
      classificar_engine t hoje w = some "vence_em_3_dias") ∧
    (∀ (t : TarefaC) (hoje w dv : Int) (s : String),
      t.dataVencimento = some s → parseYMD s = some dv → effectiveDue t = some dv →
      hoje < dv → dv ≤ hoje + min w 3 →
      classificar t hoje w = some "vence_em_3_dias") := by
  constructor
  · intro t hoje w dv s hs hp h1 h2
    have hne : ¬ (s = "") := by
      intro h
      subst h
      simp [parseYMD, parseYMDTriple] at hp
    simp only [classificar_engine, hs, if_neg hne, hp]
    split_ifs <;> first | rfl | omega
  · intro t hoje w dv s hs hp he h1 h2
    have h4 : dv ≤ hoje + w := by omega
    have hcls : classificar_tarefa_individual t hoje = some "vence_em_3_dias" := by
      rw [classificar_individual_eq, he]
      show bucketSpec hoje 3 dv = some "vence_em_3_dias"
      unfold bucketSpec
      split_ifs <;> first | rfl | omega
    unfold classificar
    rw [hcls]
    simp only [hs, hp]
    norm_num
    rw [if_pos h4]
    decide

/-- Witness for `classificar_dueSoon_window` at concrete inputs:
`hoje = 20362` (2025-10-01), `w = 4`; the src/engine fallback takes the
full window (due `"2025-10-05"`, day 20366 = hoje + 4), the azure copy the
capped one (due `"2025-10-03"`, day 20364). -/
theorem classificar_dueSoon_window_witness :
    classificar_engine ⟨none, some "2025-10-05"⟩ 20362 4 = some "vence_em_3_dias" ∧
    classificar ⟨none, some "2025-10-03"⟩ 20362 4 = some "vence_em_3_dias" := by
  have T := classificar_dueSoon_window
  exact ⟨T.1 ⟨none, some "2025-10-05"⟩ 20362 4 20366 "2025-10-05" rfl (by decide)
      (by decide) (by decide),
    T.2 ⟨none, some "2025-10-03"⟩ 20362 4 20364 "2025-10-03" rfl (by decide) (by decide)
      (by decide) (by decide)⟩

/-! ## Circuit breaker (src/engine/resilience.py, lines 22-26, 36-41, 383-429)

Wall-clock instants (`time.time()`) are passed explicitly; the breaker only
subtracts and compares them, so they are modelled as integer ticks. -/

inductive CircuitState where
  | closed
  | opened
  | halfOpen
deriving DecidableEq

/-- Fields of `CircuitBreakerConfig` (resilience.py lines 36-41);
`half_open_max_calls` is declared by the source but never read. -/
structure CircuitBreakerConfig where
  failure_threshold : Nat
  recovery_timeout_seconds : ℤ
  half_open_max_calls : Nat
  success_threshold : Nat
deriving DecidableEq

structure CBState where
  state : CircuitState
  failure_count : Nat
  success_count : Nat
  last_failure_time : ℤ
deriving DecidableEq

/-- State set up by `CircuitBreaker.__init__`. -/
def initCB : CBState := ⟨.closed, 0, 0, 0⟩

/-- Embedding of `CircuitBreaker.can_execute` (returns the boolean together
with the possibly updated state, since the OPEN branch mutates `state`). -/
def can_execute (cfg : CircuitBreakerConfig) (s : CBState) (now : ℤ) : Bool × CBState :=
  match s.state with
  | .closed => (true, s)
  | .opened =>
    if cfg.recovery_timeout_seconds ≤ now - s.last_failure_time then
      (true, { s with state := .halfOpen })
    else (false, s)
  | .halfOpen => (true, s)

/-- Embedding of `CircuitBreaker.on_success`.  Note `max(0, c - 1)` is `Nat`
truncated subtraction.  (Record updates are written as explicit
constructors `(state, failure_count, success_count, last_failure_time)`.) -/
def on_success (cfg : CircuitBreakerConfig) (s : CBState) : CBState :=
  match s.state with
  | .halfOpen =>
    if cfg.success_threshold <= s.success_count + 1 then
      (CBState.mk .closed 0 (s.success_count + 1) s.last_failure_time)
    else (CBState.mk .halfOpen s.failure_count (s.success_count + 1) s.last_failure_time)
  | .closed => (CBState.mk .closed (s.failure_count - 1) s.success_count s.last_failure_time)
  | .opened => s

/-- Embedding of `CircuitBreaker.on_failure`: stamp the failure time,
increment the counter, and open the circuit when it reaches the threshold. -/
def on_failure (cfg : CircuitBreakerConfig) (s : CBState) (now : ℤ) : CBState :=
  if cfg.failure_threshold <= s.failure_count + 1 then
    (CBState.mk .opened (s.failure_count + 1) s.success_count now)
  else (CBState.mk s.state (s.failure_count + 1) s.success_count now)

/-- One external interaction with a breaker instance. -/
inductive CBEvent where
  | fail (t : ℤ)
  | succ
  | exec (t : ℤ)

def stepCB (cfg : CircuitBreakerConfig) (s : CBState) : CBEvent -> CBState
  | .fail t => on_failure cfg s t
  | .succ => on_success cfg s
  | .exec t => (can_execute cfg s t).2

/-- A sequence of interactions applied in order. -/
def runCB (cfg : CircuitBreakerConfig) (evs : List CBEvent) (s : CBState) : CBState :=
  evs.foldl (stepCB cfg) s

theorem runCB_nil (cfg : CircuitBreakerConfig) (s : CBState) : runCB cfg [] s = s := rfl

theorem runCB_cons (cfg : CircuitBreakerConfig) (e : CBEvent) (evs : List CBEvent) (s : CBState) :
    runCB cfg (e :: evs) s = runCB cfg evs (stepCB cfg s e) := rfl

/-- Reachability invariant: away from `closed`, the failure counter has
already met the threshold (it is never reset on the OPEN to HALF_OPEN
transition). -/
def CBInv (cfg : CircuitBreakerConfig) (s : CBState) : Prop :=
  (s.state = .opened ∨ s.state = .halfOpen) -> cfg.failure_threshold <= s.failure_count

theorem stepCB_inv (cfg : CircuitBreakerConfig) (s : CBState) (e : CBEvent)
    (h : CBInv cfg s) : CBInv cfg (stepCB cfg s e) := by
  unfold CBInv at h ⊢
  cases e with
  | fail t =>
    simp only [stepCB, on_failure]
    split_ifs with h1
    · intro _; exact h1
    · intro hst
      have := h (by simpa using hst)
      simpa using Nat.le_succ_of_le this
  | succ =>
    cases hs : s.state with
    | closed => simp [stepCB, on_success, hs]
    | opened => simp only [stepCB, on_success, hs]; intro hst; exact h (by simp [hs])
    | halfOpen =>
      simp only [stepCB, on_success, hs]
      split_ifs
      · simp
      · intro _; exact h (by simp [hs])
  | exec t =>
    cases hs : s.state with
    | closed => simp only [stepCB, can_execute, hs]; intro hst; exact absurd hst (by simp)
    | halfOpen => simp only [stepCB, can_execute, hs]; intro _; exact h (Or.inr hs)
    | opened =>
      simp only [stepCB, can_execute, hs]
      split_ifs
      · intro _; exact h (by simp [hs])
      · intro _; exact h (by simp [hs])

theorem runCB_inv (cfg : CircuitBreakerConfig) (evs : List CBEvent) :
    ∀ s : CBState, CBInv cfg s -> CBInv cfg (runCB cfg evs s) := by
  induction evs with
  | nil => intro s h; exact h
  | cons e rest ih => intro s h; exact ih _ (stepCB_inv cfg s e h)

/-- State reached from a pure run of failures, as a function of the counter. -/
def stateOfCount (cfg : CircuitBreakerConfig) (c : Nat) : CircuitState :=
  if cfg.failure_threshold ≤ c then .opened else .closed

theorem runCB_fails (cfg : CircuitBreakerConfig) :
    ∀ (ts : List ℤ) (c : Nat) (l : ℤ),
      runCB cfg (ts.map CBEvent.fail) ⟨stateOfCount cfg c, c, 0, l⟩ =
        ⟨stateOfCount cfg (c + ts.length), c + ts.length, 0, ts.foldl (fun _ t => t) l⟩ := by
  intro ts
  induction ts with
  | nil => intro c l; simp [runCB]
  | cons t rest ih =>
    intro c l
    have hstep : stepCB cfg ⟨stateOfCount cfg c, c, 0, l⟩ (CBEvent.fail t) =
        ⟨stateOfCount cfg (c + 1), c + 1, 0, t⟩ := by
      simp only [stepCB, on_failure, stateOfCount]
      split_ifs <;> first | rfl | omega
    rw [List.map_cons, runCB_cons, hstep, ih (c + 1) t]
    have harith : c + 1 + rest.length = c + (t :: rest).length := by
      simp only [List.length_cons]; omega
    rw [harith]
    rfl

theorem runCB_succ_closed (cfg : CircuitBreakerConfig) :
    ∀ (j : Nat) (s : CBState), s.state = .closed → s.failure_count = 0 →
      runCB cfg (List.replicate j CBEvent.succ) s = s := by
  intro j
  induction j with
  | zero => intro s _ _; rfl
  | succ k ih =>
    intro s hs hf
    rw [List.replicate_succ, runCB_cons]
    have hstep : stepCB cfg s CBEvent.succ = s := by
      obtain ⟨st, fc, sc, l⟩ := s
      simp only at hs hf
      subst hs; subst hf
      simp [stepCB, on_success]
    rw [hstep]; exact ih s hs hf

theorem runCB_succ_halfOpen (cfg : CircuitBreakerConfig) :
    ∀ (j : Nat) (s : CBState), s.state = .halfOpen →
      cfg.success_threshold ≤ s.success_count + j → 1 ≤ j →
      (runCB cfg (List.replicate j CBEvent.succ) s).state = .closed ∧
      (runCB cfg (List.replicate j CBEvent.succ) s).failure_count = 0 := by
  intro j
  induction j with
  | zero => intro s _ _ h1; omega
  | succ k ih =>
    intro s hs hth _
    rw [List.replicate_succ, runCB_cons]
    by_cases hc : cfg.success_threshold ≤ s.success_count + 1
    · have hstep : stepCB cfg s CBEvent.succ =
          CBState.mk .closed 0 (s.success_count + 1) s.last_failure_time := by
        obtain ⟨st, fc, sc, l⟩ := s
        simp only at hs; subst hs
        simp [stepCB, on_success, hc]
      rw [hstep, runCB_succ_closed cfg k _ rfl rfl]
      exact ⟨rfl, rfl⟩
    · have hstep : stepCB cfg s CBEvent.succ =
          CBState.mk .halfOpen s.failure_count (s.success_count + 1) s.last_failure_time := by
        obtain ⟨st, fc, sc, l⟩ := s
        subst hs
        simp [stepCB, on_success, hc]
      rw [hstep]
      have h1 : cfg.success_threshold ≤ (s.success_count + 1) + k := by omega
      have h2 : 1 ≤ k := by omega
      exact ih _ rfl h1 h2

/-- C4.  Circuit breaker state machine, for any configuration with positive
thresholds: (1) starting from the initial `closed` state, any
`failure_threshold` consecutive `on_failure` calls leave the breaker
`opened`, and while `recovery_timeout_seconds` has not elapsed since the
last failure every `can_execute` is denied; (2) in `opened`, once the
timeout has elapsed the next `can_execute` is permitted and moves the state
to `halfOpen`; (3) from ANY `halfOpen` state (hence on every
open-to-half-open episode), `success_threshold` consecutive `on_success`
calls close the circuit and reset `failure_count` to 0; (4) in any
reachable `halfOpen` state, a single `on_failure` re-opens the circuit
immediately. -/
theorem circuit_breaker_machine (cfg : CircuitBreakerConfig)
    (hft : 1 ≤ cfg.failure_threshold) (hst : 1 ≤ cfg.success_threshold) :
    (∀ ts : List ℤ, ts.length = cfg.failure_threshold →
      (runCB cfg (ts.map CBEvent.fail) initCB).state = .opened ∧
      ∀ now : ℤ, now - (runCB cfg (ts.map CBEvent.fail) initCB).last_failure_time <
          cfg.recovery_timeout_seconds →
        (can_execute cfg (runCB cfg (ts.map CBEvent.fail) initCB) now).1 = false) ∧
    (∀ (s : CBState) (now : ℤ), s.state = .opened →
      cfg.recovery_timeout_seconds ≤ now - s.last_failure_time →
      (can_execute cfg s now).1 = true ∧ (can_execute cfg s now).2.state = .halfOpen) ∧
    (∀ s : CBState, s.state = .halfOpen →
      (runCB cfg (List.replicate cfg.success_threshold CBEvent.succ) s).state = .closed ∧
      (runCB cfg (List.replicate cfg.success_threshold CBEvent.succ) s).failure_count = 0) ∧
    (∀ (evs : List CBEvent) (now : ℤ),
      (runCB cfg evs initCB).state = .halfOpen →
      (on_failure cfg (runCB cfg evs initCB) now).state = .opened) := by
  have hinit : initCB = CBState.mk (stateOfCount cfg 0) 0 0 0 := by
    unfold initCB stateOfCount
    rw [if_neg (by omega)]
  refine ⟨?_, ?_, ?_, ?_⟩
  · intro ts hlen
    rw [hinit, runCB_fails cfg ts 0 0]
    have hopen : stateOfCount cfg (0 + ts.length) = .opened := by
      unfold stateOfCount; rw [if_pos (by omega)]
    refine ⟨hopen, ?_⟩
    intro now hnow
    simp only [can_execute, hopen]
    rw [if_neg (not_le.mpr hnow)]
  · intro s now hs htime
    simp only [can_execute, hs]
    rw [if_pos htime]
    exact ⟨rfl, rfl⟩
  · intro s hs
    exact runCB_succ_halfOpen cfg cfg.success_threshold s hs (by omega) hst
  · intro evs now hhalf
    have hInv : CBInv cfg (runCB cfg evs initCB) :=
      runCB_inv cfg evs initCB (by intro h; rcases h with h | h <;> simp [initCB] at h)
    have hle : cfg.failure_threshold ≤ (runCB cfg evs initCB).failure_count :=
      hInv (Or.inr hhalf)
    unfold on_failure
    rw [if_pos (by omega)]

/-- Witness for `circuit_breaker_machine` with the default configuration
`(failure_threshold 5, recovery_timeout 60, half_open_max_calls 3,
success_threshold 2)` and concrete event sequences. -/
theorem circuit_breaker_machine_witness :
    ((1 : Nat) ≤ 5) ∧ ((1 : Nat) ≤ 2) ∧
    (runCB ⟨5, 60, 3, 2⟩ ([(1 : ℤ), 2, 3, 4, 5].map CBEvent.fail) initCB).state = .opened ∧
    (can_execute ⟨5, 60, 3, 2⟩
      (runCB ⟨5, 60, 3, 2⟩ ([(1 : ℤ), 2, 3, 4, 5].map CBEvent.fail) initCB) 6).1 = false ∧
    (can_execute ⟨5, 60, 3, 2⟩ (CBState.mk .opened 5 0 5) 100).1 = true ∧
    (runCB ⟨5, 60, 3, 2⟩ (List.replicate 2 CBEvent.succ) (CBState.mk .halfOpen 5 0 5)).state
      = .closed ∧
    (on_failure ⟨5, 60, 3, 2⟩
      (runCB ⟨5, 60, 3, 2⟩ ([(1 : ℤ), 2, 3, 4, 5].map CBEvent.fail ++ [CBEvent.exec 100])
        initCB) 101).state = .opened := by
  have T := circuit_breaker_machine ⟨5, 60, 3, 2⟩ (by decide) (by decide)
  refine ⟨by decide, by decide, (T.1 [1, 2, 3, 4, 5] (by decide)).1, ?_, ?_, ?_, ?_⟩
  · exact (T.1 [1, 2, 3, 4, 5] (by decide)).2 6 (by decide)
  · exact ((T.2.1 (CBState.mk .opened 5 0 5) 100) rfl (by decide)).1
  · exact (T.2.2.1 (CBState.mk .halfOpen 5 0 5) rfl).1
  · exact T.2.2.2 ([(1 : ℤ), 2, 3, 4, 5].map CBEvent.fail ++ [CBEvent.exec 100]) 101 (by decide)

/-! ## Rate limiter (src/engine/resilience.py, lines 28-33, 344-373)

Token counts are floats in the source, modelled as rationals; wall-clock
instants are integer ticks.  `can_proceed` is a total function: it returns
immediately and never blocks or queues. -/

structure RateLimitConfig where
  requests_per_second : ℚ
  burst_capacity : ℤ
  window_size_seconds : ℤ
deriving DecidableEq

structure RLState where
  tokens : ℚ
  last_update : ℤ
  requests_count : Nat
deriving DecidableEq

/-- State set up by `RateLimiter.__init__` at instant `t0`. -/
def initRL (cfg : RateLimitConfig) (t0 : ℤ) : RLState :=
  ⟨(cfg.burst_capacity : ℚ), t0, 0⟩

/-- Embedding of `RateLimiter.can_proceed`: lazily refill proportionally to
the elapsed time, cap at the burst capacity, then consume one token if at
least one is available. -/
def can_proceed (cfg : RateLimitConfig) (s : RLState) (now : ℤ) : Bool × RLState :=
  let elapsed : ℚ := ((now - s.last_update : ℤ) : ℚ)
  let tokens1 := min (cfg.burst_capacity : ℚ) (s.tokens + elapsed * cfg.requests_per_second)
  if 1 ≤ tokens1 then
    (true, ⟨tokens1 - 1, now, s.requests_count + 1⟩)
  else
    (false, ⟨tokens1, now, s.requests_count⟩)

/-- A burst of `n` consecutive `can_proceed` calls, all at instant `now`,
collecting the returned booleans. -/
def runRL (cfg : RateLimitConfig) (now : ℤ) : Nat → RLState → List Bool × RLState
  | 0, s => ([], s)
  | n + 1, s =>
    let r := can_proceed cfg s now
    let rest := runRL cfg now n r.2
    (r.1 :: rest.1, rest.2)

theorem runRL_zero_rate (b w : ℤ) (now : ℤ) :
    ∀ (n k : Nat) (rc : Nat) (last : ℤ), (k : ℚ) ≤ (b : ℚ) →
      (runRL ⟨0, b, w⟩ now n ⟨(k : ℚ), last, rc⟩).1 =
        (List.range n).map (fun i => decide (i < k)) := by
  intro n
  induction n with
  | zero => intro k rc last _; simp [runRL]
  | succ m ih =>
    intro k rc last hk
    have htok : min ((b : ℤ) : ℚ) ((k : ℚ) + ((now - last : ℤ) : ℚ) * (0 : ℚ)) = (k : ℚ) := by
      rw [mul_zero, add_zero, min_eq_right hk]
    by_cases h1 : 1 ≤ k
    · have h1q : (1 : ℚ) ≤ (k : ℚ) := by exact_mod_cast h1
      have hstep : can_proceed ⟨0, b, w⟩ ⟨(k : ℚ), last, rc⟩ now =
          (true, ⟨((k - 1 : Nat) : ℚ), now, rc + 1⟩) := by
        simp only [can_proceed, htok]
        rw [if_pos h1q]
        have : ((k : ℚ)) - 1 = ((k - 1 : Nat) : ℚ) := by
          rw [Nat.cast_sub h1]; norm_num
        rw [this]
      simp only [runRL, hstep]
      have hkb : ((k - 1 : Nat) : ℚ) ≤ (b : ℚ) :=
        le_trans (by exact_mod_cast Nat.sub_le k 1) hk
      rw [ih (k - 1) (rc + 1) now hkb]
      rw [List.range_succ_eq_map, List.map_cons, List.map_map]
      congr 1
      · simp [Nat.lt_of_lt_of_le Nat.zero_lt_one h1]
      · exact List.map_congr_left fun i _ => by
          simp only [Function.comp_apply]
          congr 1
          simp only [eq_iff_iff]
          omega
    · have h0 : k = 0 := by omega
      subst h0
      have h1q : ¬ (1 : ℚ) ≤ ((0 : Nat) : ℚ) := by norm_num
      have hstep : can_proceed ⟨0, b, w⟩ ⟨((0 : Nat) : ℚ), last, rc⟩ now =
          (false, ⟨((0 : Nat) : ℚ), now, rc⟩) := by
        simp only [can_proceed, htok]
        rw [if_neg h1q]
      simp only [runRL, hstep]
      rw [ih 0 rc now (by exact_mod_cast hk)]
      simp [List.range_succ_eq_map, List.map_map]

/-- C6.  Rate limiter burst exhaustion: (1) for a limiter built with
`burst_capacity = 3` and `requests_per_second = 0`, the `i`-th of any
sequence of `can_proceed` calls (no time needs to elapse; with rate 0 no
replenishment happens regardless) returns `true` exactly for the first 3
calls and `false` from the 4th call on; (2) for every configuration and
state, the token count after any call never exceeds `burst_capacity`;
(3) with `requests_per_second = 0` the token count never increases
(refill is proportional to elapsed time, hence zero). -/
theorem rate_limiter_burst :
    (∀ (t0 : ℤ) (n : Nat),
      (runRL ⟨0, 3, 60⟩ t0 n (initRL ⟨0, 3, 60⟩ t0)).1 =
        (List.range n).map (fun i => decide (i < 3))) ∧
    (∀ (cfg : RateLimitConfig) (s : RLState) (now : ℤ),
      (can_proceed cfg s now).2.tokens ≤ (cfg.burst_capacity : ℚ)) ∧
    (∀ (b w : ℤ) (s : RLState) (now : ℤ),
      (can_proceed ⟨0, b, w⟩ s now).2.tokens ≤ s.tokens) := by
  refine ⟨?_, ?_, ?_⟩
  · intro t0 n
    have hcast : ((3 : ℤ) : ℚ) = ((3 : Nat) : ℚ) := by norm_num
    have := runRL_zero_rate 3 60 t0 n 3 0 t0 (by norm_num)
    simpa [initRL, hcast] using this
  · intro cfg s now
    simp only [can_proceed]
    split_ifs with h
    · have : min (cfg.burst_capacity : ℚ)
          (s.tokens + ((now - s.last_update : ℤ) : ℚ) * cfg.requests_per_second) ≤
          (cfg.burst_capacity : ℚ) := min_le_left _ _
      simp only []
      linarith
    · exact min_le_left _ _
  · intro b w s now
    simp only [can_proceed]
    have hmin : min ((b : ℤ) : ℚ)
        (s.tokens + ((now - s.last_update : ℤ) : ℚ) * (0 : ℚ)) ≤ s.tokens := by
      rw [mul_zero, add_zero]
      exact min_le_right _ _
    split_ifs with h
    · simp only []
      linarith
    · exact hmin

/-! ## Grouper (src/engine/notification_engine.py, lines 310-337, and the
identical `agrupar_por_responsavel` in the azure_functions copy)

The downstream resolver `listar_responsaveis_tarefa` is external (HTTP
client); it is modelled as an oracle `String → Option (List Resp)`, where
`none` stands for the call raising an exception.  `sleep_ms`, `verbose`
printing and the `isinstance(resp_list, list)` guard (dead in this typed
model) are side-effect-only and not modelled. -/

structure Resp where
  apelido : Option String
  nome : Option String
  rid : String
deriving DecidableEq

/-- Fallback of `r.get("apelido") or r.get("nome") or f"resp_{r.get('id')}"`
when `apelido` is falsy: `None` and the empty string are both falsy. -/
def nomeFallback (r : Resp) : String :=
  match r.nome with
  | some n => if n = "" then "resp_" ++ r.rid else n
  | none => "resp_" ++ r.rid

/-- Group key chosen for a responsible person. -/
def apelidoOf (r : Resp) : String :=
  match r.apelido with
  | some a => if a = "" then nomeFallback r else a
  | none => nomeFallback r

structure TarefaG where
  id : String
deriving DecidableEq

/-- One `grupos[apelido].append(t)` on the insertion-ordered dict. -/
def addToGroup : List (String × List TarefaG) → String → TarefaG → List (String × List TarefaG)
  | [], key, t => [(key, [t])]
  | (k, ts) :: rest, key, t =>
    if k = key then (k, ts ++ [t]) :: rest else (k, ts) :: addToGroup rest key t

/-- The inner `for r in resp_list` loop body. -/
def addResponsibles (g : List (String × List TarefaG)) (rs : List Resp) (t : TarefaG) :
    List (String × List TarefaG) :=
  rs.foldl (fun g r => addToGroup g (apelidoOf r) t) g

/-- Result of a grouper run: the groups, the `consultados` counter, and the
number of calls actually made to the resolver (for claim C5). -/
structure GrupoRun where
  grupos : List (String × List TarefaG)
  consultados : Nat
  calls : Nat
deriving DecidableEq

/-- Loop of `agrupar_por_responsavel`: the break test `consultados >=
max_responsaveis_lookup` runs before each task; the resolver is then
called; on an exception (oracle `none`) the task is skipped and
`consultados` is NOT incremented. -/
def agrupar_go (oracle : String → Option (List Resp)) (maxL : Nat) :
    List TarefaG → Nat → Nat → List (String × List TarefaG) → GrupoRun
  | [], consultados, calls, g => ⟨g, consultados, calls⟩
  | t :: rest, consultados, calls, g =>
    if maxL ≤ consultados then ⟨g, consultados, calls⟩
    else
      match oracle t.id with
      | none => agrupar_go oracle maxL rest consultados (calls + 1) g
      | some rs => agrupar_go oracle maxL rest (consultados + 1) (calls + 1) (addResponsibles g rs t)

/-- Embedding of `agrupar_por_responsavel(tarefas, max_responsaveis_lookup)`. -/
def agrupar_por_responsavel (oracle : String → Option (List Resp))
    (tarefas : List TarefaG) (maxL : Nat := 100) : GrupoRun :=
  agrupar_go oracle maxL tarefas 0 0 []

/-- The `calls` accumulator is a pure offset: groups and `consultados` do
not depend on it. -/
theorem agrupar_go_calls_shift (oracle : String → Option (List Resp)) (maxL : Nat) :
    ∀ (ts : List TarefaG) (c k : Nat) (g : List (String × List TarefaG)),
      agrupar_go oracle maxL ts c k g =
        ⟨(agrupar_go oracle maxL ts c 0 g).grupos,
         (agrupar_go oracle maxL ts c 0 g).consultados,
         (agrupar_go oracle maxL ts c 0 g).calls + k⟩ := by
  intro ts
  induction ts with
  | nil => intro c k g; simp [agrupar_go]
  | cons t rest ih =>
    intro c k g
    by_cases hb : maxL ≤ c
    · simp [agrupar_go, hb]
    · cases ho : oracle t.id with
      | none =>
        simp only [agrupar_go, if_neg hb, ho]
        rw [ih c (k + 1) g, ih c (0 + 1) g]
        simp only [GrupoRun.mk.injEq, true_and]
        omega
      | some rs =>
        simp only [agrupar_go, if_neg hb, ho]
        rw [ih (c + 1) (k + 1) (addResponsibles g rs t), ih (c + 1) (0 + 1) (addResponsibles g rs t)]
        simp only [GrupoRun.mk.injEq, true_and]
        omega

theorem agrupar_go_consultados_le (oracle : String → Option (List Resp)) (maxL : Nat) :
    ∀ (ts : List TarefaG) (c k : Nat) (g : List (String × List TarefaG)), c ≤ maxL →
      (agrupar_go oracle maxL ts c k g).consultados ≤ maxL := by
  intro ts
  induction ts with
  | nil => intro c k g hc; simpa [agrupar_go] using hc
  | cons t rest ih =>
    intro c k g hc
    by_cases hb : maxL ≤ c
    · simpa [agrupar_go, hb] using hc
    · cases ho : oracle t.id with
      | none => simp only [agrupar_go, if_neg hb, ho]; exact ih c (k + 1) g hc
      | some rs =>
        simp only [agrupar_go, if_neg hb, ho]
        exact ih (c + 1) (k + 1) _ (by omega)

theorem agrupar_go_calls_le (oracle : String → Option (List Resp)) (maxL : Nat) :
    ∀ (ts : List TarefaG) (c k : Nat) (g : List (String × List TarefaG)),
      (agrupar_go oracle maxL ts c k g).calls ≤ k + ts.length := by
  intro ts
  induction ts with
  | nil => intro c k g; simp [agrupar_go]
  | cons t rest ih =>
    intro c k g
    by_cases hb : maxL ≤ c
    · simp [agrupar_go, hb]
    · cases ho : oracle t.id with
      | none =>
        simp only [agrupar_go, if_neg hb, ho, List.length_cons]
        exact le_trans (ih c (k + 1) g) (by omega)
      | some rs =>
        simp only [agrupar_go, if_neg hb, ho, List.length_cons]
        exact le_trans (ih (c + 1) (k + 1) _) (by omega)

/-- A task whose resolver call fails is skipped and affects nothing else:
removing it from anywhere in the input leaves groups and `consultados`
unchanged. -/
theorem agrupar_go_skip_failing (oracle : String → Option (List Resp)) (maxL : Nat)
    (t : TarefaG) (hfail : oracle t.id = none) :
    ∀ (pre post : List TarefaG) (c k : Nat) (g : List (String × List TarefaG)),
      (agrupar_go oracle maxL (pre ++ t :: post) c k g).grupos =
        (agrupar_go oracle maxL (pre ++ post) c k g).grupos ∧
      (agrupar_go oracle maxL (pre ++ t :: post) c k g).consultados =
        (agrupar_go oracle maxL (pre ++ post) c k g).consultados := by
  intro pre
  induction pre with
  | nil =>
    intro post c k g
    simp only [List.nil_append]
    by_cases hb : maxL ≤ c
    · cases post with
      | nil => simp [agrupar_go, hb]
      | cons p ps => simp [agrupar_go, hb]
    · simp only [agrupar_go, if_neg hb, hfail]
      rw [agrupar_go_calls_shift oracle maxL post c (k + 1) g,
          agrupar_go_calls_shift oracle maxL post c k g]
      exact ⟨rfl, rfl⟩
  | cons p pre' ih =>
    intro post c k g
    by_cases hb : maxL ≤ c
    · simp [agrupar_go, hb]
    · cases ho : oracle p.id with
      | none => simp only [List.cons_append, agrupar_go, if_neg hb, ho]; exact ih post c (k + 1) g
      | some rs =>
        simp only [List.cons_append, agrupar_go, if_neg hb, ho]
        exact ih post (c + 1) (k + 1) _

/-- C5 (counterexample).  The claim "one call performs at most maxLookups
calls to the resolver regardless of how many fail" is false: with
`max_responsaveis_lookup = 1` and two tasks whose resolver calls both fail,
the resolver is called twice, because `consultados` is only incremented
after a successful call. -/
theorem grouper_lookup_ceiling_counterexample :
    (agrupar_por_responsavel (fun _ => none) [⟨"1"⟩, ⟨"2"⟩] 1).calls = 2 ∧ ¬ (2 ≤ 1) :=
  ⟨rfl, by decide⟩

/-- C5 (amended).  For every resolver oracle, task list and
`max_responsaveis_lookup`: (1) at most `maxLookups` SUCCESSFUL resolver
calls are made (`consultados ≤ maxL`) — failed calls do not count toward
the ceiling; (2) the resolver is called at most once per task; (3) a task
whose resolver call fails is skipped and only that task: deleting it from
the input changes neither the groups nor `consultados`, so the batch is
never aborted. -/
theorem grouper_lookup_ceiling (oracle : String → Option (List Resp))
    (tarefas : List TarefaG) (maxL : Nat) :
    (agrupar_por_responsavel oracle tarefas maxL).consultados ≤ maxL ∧
    (agrupar_por_responsavel oracle tarefas maxL).calls ≤ tarefas.length ∧
    (∀ (pre post : List TarefaG) (t : TarefaG), tarefas = pre ++ t :: post →
      oracle t.id = none →
      (agrupar_por_responsavel oracle tarefas maxL).grupos =
        (agrupar_por_responsavel oracle (pre ++ post) maxL).grupos ∧
      (agrupar_por_responsavel oracle tarefas maxL).consultados =
        (agrupar_por_responsavel oracle (pre ++ post) maxL).consultados) := by
  refine ⟨agrupar_go_consultados_le oracle maxL tarefas 0 0 [] (by omega),
    by simpa using agrupar_go_calls_le oracle maxL tarefas 0 0 [], ?_⟩
  intro pre post t ht hfail
  subst ht
  exact agrupar_go_skip_failing oracle maxL t hfail pre post 0 0 []

/-- Oracle for the C5 witness: task "2" fails, every other task resolves to
one responsible person. -/
def oracleC5 : String → Option (List Resp) :=
  fun s => if s = "2" then none else some [⟨some "ana", none, "9"⟩]

/-- Witness for `grouper_lookup_ceiling` at a concrete input. -/
theorem grouper_lookup_ceiling_witness :
    (agrupar_por_responsavel oracleC5 [⟨"1"⟩, ⟨"2"⟩, ⟨"3"⟩] 5).consultados ≤ 5 ∧
    (agrupar_por_responsavel oracleC5 [⟨"1"⟩, ⟨"2"⟩, ⟨"3"⟩] 5).calls ≤ 3 ∧
    (agrupar_por_responsavel oracleC5 [⟨"1"⟩, ⟨"2"⟩, ⟨"3"⟩] 5).grupos =
      (agrupar_por_responsavel oracleC5 ([⟨"1"⟩] ++ [⟨"3"⟩]) 5).grupos := by
  have T := grouper_lookup_ceiling oracleC5 [⟨"1"⟩, ⟨"2"⟩, ⟨"3"⟩] 5
  exact ⟨T.1, T.2.1, (T.2.2 [⟨"1"⟩] [⟨"3"⟩] ⟨"2"⟩ rfl (by decide)).1⟩

/-! ## Cache (src/azure_functions/shared_code/engine/cache.py)

`IntelligentCache` over an arbitrary value type.  Wall-clock instants are
integer ticks.  The dict `self._cache` is an insertion-ordered association
list with unique keys, as in CPython.  The gzip/base64 compression pipeline
(`_compress_value` / `_decompress_value`) is external-library behaviour and
is modelled as the identity, which is exact for the instances constructed
with `enable_compression=False` and for values below the 1KB threshold; the
hit/miss statistics counters do not affect cache contents and are omitted.
`hashlib.md5` is likewise external and is taken as an arbitrary function
parameter `md5hex`. -/

structure CacheEntry (α : Type) where
  value : α
  created_at : ℤ
  ttl_seconds : ℤ
  access_count : Nat
  last_accessed : ℤ
deriving DecidableEq

/-- Embedding of `CacheEntry.is_expired`: `time.time() - created_at > ttl`. -/
def CacheEntry.is_expired (e : CacheEntry α) (now : ℤ) : Bool :=
  decide (e.ttl_seconds < now - e.created_at)

/-- Embedding of `CacheEntry.touch`. -/
def CacheEntry.touch (e : CacheEntry α) (now : ℤ) : CacheEntry α :=
  { e with access_count := e.access_count + 1, last_accessed := now }

structure Cache (α : Type) where
  max_size : Nat
  default_ttl : ℤ
  cache : List (String × CacheEntry α)
deriving DecidableEq

/-- ASCII lowercasing of one character (`str.lower` restricted to the ASCII
letters; no claim depends on non-ASCII case folding). -/
def lowerChar (c : Char) : Char :=
  if 'A' ≤ c ∧ c ≤ 'Z' then Char.ofNat (c.toNat + 32) else c

/-- Python `str.strip` whitespace set (the ASCII part). -/
def isPySpace (c : Char) : Bool :=
  c = ' ' ∨ c = '\t' ∨ c = '\n' ∨ c = '\r' ∨ c = Char.ofNat 11 ∨ c = Char.ofNat 12

/-- Strip characters satisfying `isPySpace` from both ends. -/
def stripList (l : List Char) : List Char :=
  ((l.dropWhile isPySpace).reverse.dropWhile isPySpace).reverse

/-- Embedding of `key.lower().strip()`. -/
def pyStripLower (s : String) : String :=
  ⟨stripList (s.data.map lowerChar)⟩

/-- Embedding of `IntelligentCache._generate_key` (cache.py lines 88-92):
keys longer than 200 characters are replaced by their MD5 hex digest,
otherwise lowercased and stripped. -/
def generate_key (md5hex : String → String) (key : String) : String :=
  if 200 < key.length then md5hex key else pyStripLower key

/-- Association-list lookup (`key in dict` / `dict[key]`). -/
def lookupC : List (String × CacheEntry α) → String → Option (CacheEntry α)
  | [], _ => none
  | (k', e) :: rest, k => if k' = k then some e else lookupC rest k

/-- Association-list store (`dict[key] = entry`): updating an existing key
keeps its position, a new key is appended. -/
def setAssoc : List (String × CacheEntry α) → String → CacheEntry α → List (String × CacheEntry α)
  | [], k, e => [(k, e)]
  | (k', e') :: rest, k, e =>
    if k' = k then (k, e) :: rest else (k', e') :: setAssoc rest k e

/-- Association-list delete (`del dict[key]`). -/
def delAssoc : List (String × CacheEntry α) → String → List (String × CacheEntry α)
  | [], _ => []
  | (k', e') :: rest, k => if k' = k then rest else (k', e') :: delAssoc rest k

/-- Embedding of `IntelligentCache._cleanup_expired`. -/
def cleanup_expired (now : ℤ) (c : List (String × CacheEntry α)) :
    List (String × CacheEntry α) :=
  c.filter (fun p => ! p.2.is_expired now)

/-- First entry of minimal `last_accessed`, i.e.
`min(keys, key=lambda k: cache[k].last_accessed)` (CPython `min` keeps the
first minimum in iteration order; `none` on an empty dict models the
`ValueError` it raises). -/
def lruMin : List (String × CacheEntry α) → Option (String × CacheEntry α)
  | [] => none
  | p :: rest =>
    some (rest.foldl (fun best q => if q.2.last_accessed < best.2.last_accessed then q else best) p)

/-- Embedding of `IntelligentCache._evict_lru` (cache.py lines 131-142);
`none` models the `ValueError` from `min` on an empty dict (only reachable
with `max_size = 0`). -/
def evict_lru (maxSize : Nat) (c : List (String × CacheEntry α)) :
    Option (List (String × CacheEntry α)) :=
  if c.length < maxSize then some c
  else (lruMin c).map (fun p => delAssoc c p.1)

/-- Embedding of `ttl = ttl or self.default_ttl`: `None` AND `0` are falsy. -/
def resolveTtl (st : Cache α) (ttl : Option ℤ) : ℤ :=
  match ttl with
  | none => st.default_ttl
  | some t => if t = 0 then st.default_ttl else t

/-- Embedding of `IntelligentCache.set` (cache.py lines 179-206).  The
boolean is the return value; `false` is the `except` path (the cleanup that
already ran is kept, as the Python object was mutated in place). -/
def cacheSet (md5hex : String → String) (st : Cache α) (now : ℤ) (key : String) (v : α)
    (ttl : Option ℤ) : Bool × Cache α :=
  let nk := generate_key md5hex key
  let t := resolveTtl st ttl
  let c1 := cleanup_expired now st.cache
  match evict_lru st.max_size c1 with
  | none => (false, { st with cache := c1 })
  | some c2 => (true, { st with cache := setAssoc c2 nk ⟨v, now, t, 0, now⟩ })

/-- Embedding of `IntelligentCache.get` (cache.py lines 157-177): a miss on
an absent or expired key (the expired entry is deleted), otherwise `touch`
and return the value. -/
def cacheGet (md5hex : String → String) (st : Cache α) (now : ℤ) (key : String) :
    Option α × Cache α :=
  let nk := generate_key md5hex key
  match lookupC st.cache nk with
  | none => (none, st)
  | some e =>
    if e.is_expired now then (none, { st with cache := delAssoc st.cache nk })
    else (some e.value, { st with cache := setAssoc st.cache nk (e.touch now) })

/-- Insert a sequence of keys one tick apart (the C7 scenario: `maxSize+1`
distinct keys, none touched again between inserts). -/
def setSeq (md5hex : String → String) : Cache α → ℤ → List String → α → Option ℤ → Cache α
  | st, _, [], _, _ => st
  | st, t, k :: ks, v, ttl => setSeq md5hex (cacheSet md5hex st t k v ttl).2 (t + 1) ks v ttl

/-- Closed form of the cache contents `setSeq` builds while nothing expires
or is evicted. -/
def entriesFor (md5hex : String → String) (T : ℤ) (v : α) : ℤ → List String →
    List (String × CacheEntry α)
  | _, [] => []
  | t, k :: ks => (generate_key md5hex k, ⟨v, t, T, 0, t⟩) :: entriesFor md5hex T v (t + 1) ks

theorem lookup_setAssoc_self (c : List (String × CacheEntry α)) (k : String) (e : CacheEntry α) :
    lookupC (setAssoc c k e) k = some e := by
  induction c with
  | nil => simp [setAssoc, lookupC]
  | cons p rest ih =>
    obtain ⟨k', e'⟩ := p
    by_cases h : k' = k
    · simp [setAssoc, lookupC, h]
    · simp only [setAssoc, if_neg h, lookupC]
      exact ih

theorem lookupC_eq_none (c : List (String × CacheEntry α)) (k : String)
    (h : k ∉ c.map Prod.fst) : lookupC c k = none := by
  induction c with
  | nil => rfl
  | cons p rest ih =>
    simp only [List.map_cons, List.mem_cons] at h
    push_neg at h
    simp only [lookupC]
    rw [if_neg (fun he => h.1 he.symm)]
    exact ih h.2

theorem lookupC_isSome_of_mem (c : List (String × CacheEntry α)) (k : String)
    (h : k ∈ c.map Prod.fst) : (lookupC c k).isSome = true := by
  induction c with
  | nil => simp at h
  | cons p rest ih =>
    simp only [List.map_cons, List.mem_cons] at h
    by_cases he : p.1 = k
    · obtain ⟨k', e'⟩ := p; simp only at he; simp [lookupC, he]
    · obtain ⟨k', e'⟩ := p
      simp only at he
      simp only [lookupC, if_neg he]
      rcases h with h | h
      · exact absurd h.symm he
      · exact ih h

theorem setAssoc_append_of_absent (c : List (String × CacheEntry α)) (k : String)
    (e : CacheEntry α) (h : k ∉ c.map Prod.fst) : setAssoc c k e = c ++ [(k, e)] := by
  induction c with
  | nil => rfl
  | cons p rest ih =>
    simp only [List.map_cons, List.mem_cons] at h
    push_neg at h
    obtain ⟨k', e'⟩ := p
    simp only at h
    simp only [setAssoc, List.cons_append]
    rw [if_neg (fun he => h.1 he.symm), ih h.2]

theorem cleanup_keep_all (now : ℤ) (c : List (String × CacheEntry α))
    (h : ∀ p ∈ c, p.2.is_expired now = false) : cleanup_expired now c = c := by
  unfold cleanup_expired
  apply List.filter_eq_self.mpr
  intro p hp
  simp [h p hp]

theorem lruFold_spec (rest : List (String × CacheEntry α)) :
    ∀ p : String × CacheEntry α,
      (rest.foldl (fun best q => if q.2.last_accessed < best.2.last_accessed then q else best) p)
        ∈ p :: rest ∧
      ∀ q ∈ p :: rest,
        (rest.foldl (fun best q => if q.2.last_accessed < best.2.last_accessed then q else best)
          p).2.last_accessed ≤ q.2.last_accessed := by
  induction rest with
  | nil => intro p; refine ⟨by simp, ?_⟩; intro q hq; simp at hq; subst hq; rfl
  | cons r rest' ih =>
    intro p
    simp only [List.foldl_cons]
    set p' := if r.2.last_accessed < p.2.last_accessed then r else p with hp'
    have hmem := (ih p').1
    have hmin := (ih p').2
    have hp'le : p'.2.last_accessed ≤ p.2.last_accessed ∧
        p'.2.last_accessed ≤ r.2.last_accessed := by
      rw [hp']; split_ifs with hlt
      · exact ⟨le_of_lt hlt, le_refl _⟩
      · exact ⟨le_refl _, le_of_not_lt hlt⟩
    constructor
    · rcases List.mem_cons.mp hmem with h | h
      · rw [h, hp']
        split_ifs
        · simp
        · simp
      · simp only [List.mem_cons] at h ⊢
        tauto
    · intro q hq
      simp only [List.mem_cons] at hq
      rcases hq with rfl | rfl | hq
      · exact le_trans (hmin p' (by simp)) hp'le.1
      · exact le_trans (hmin p' (by simp)) hp'le.2
      · exact hmin q (by simp [hq])

theorem lruMin_spec (c : List (String × CacheEntry α)) (p : String × CacheEntry α)
    (h : lruMin c = some p) : p ∈ c ∧ ∀ q ∈ c, p.2.last_accessed ≤ q.2.last_accessed := by
  cases c with
  | nil => simp [lruMin] at h
  | cons r rest =>
    simp only [lruMin, Option.some_inj] at h
    subst h
    exact lruFold_spec rest r

theorem lruMin_head_strict (p : String × CacheEntry α) (rest : List (String × CacheEntry α))
    (h : ∀ q ∈ rest, p.2.last_accessed < q.2.last_accessed) : lruMin (p :: rest) = some p := by
  simp only [lruMin, Option.some_inj]
  induction rest generalizing p with
  | nil => rfl
  | cons r rest' ih =>
    simp only [List.foldl_cons]
    have hr : ¬ r.2.last_accessed < p.2.last_accessed :=
      not_lt.mpr (le_of_lt (h r (by simp)))
    rw [if_neg hr]
    exact ih p (fun q hq => h q (by simp [hq]))

theorem setSeq_append (md5hex : String → String) (v : α) (ttl : Option ℤ) :
    ∀ (a b : List String) (st : Cache α) (t : ℤ),
      setSeq md5hex st t (a ++ b) v ttl =
        setSeq md5hex (setSeq md5hex st t a v ttl) (t + a.length) b v ttl := by
  intro a
  induction a with
  | nil => intro b st t; simp [setSeq]
  | cons k a' ih =>
    intro b st t
    have h1 : setSeq md5hex st t ((k :: a') ++ b) v ttl =
        setSeq md5hex (cacheSet md5hex st t k v ttl).2 (t + 1) (a' ++ b) v ttl := rfl
    have h2 : setSeq md5hex st t (k :: a') v ttl =
        setSeq md5hex (cacheSet md5hex st t k v ttl).2 (t + 1) a' v ttl := rfl
    rw [h1, h2, ih b _ (t + 1)]
    congr 1
    simp only [List.length_cons]
    omega

theorem entriesFor_keys (md5hex : String → String) (T : ℤ) (v : α) :
    ∀ (ks : List String) (t : ℤ),
      (entriesFor md5hex T v t ks).map Prod.fst = ks.map (generate_key md5hex) := by
  intro ks
  induction ks with
  | nil => intro t; rfl
  | cons k ks' ih => intro t; simp only [entriesFor, List.map_cons, ih]

theorem entriesFor_length (md5hex : String → String) (T : ℤ) (v : α) :
    ∀ (ks : List String) (t : ℤ), (entriesFor md5hex T v t ks).length = ks.length := by
  intro ks
  induction ks with
  | nil => intro t; rfl
  | cons k ks' ih => intro t; simp only [entriesFor, List.length_cons, ih]

theorem entriesFor_mem (md5hex : String → String) (T : ℤ) (v : α) :
    ∀ (ks : List String) (t : ℤ), ∀ p ∈ entriesFor md5hex T v t ks,
      p.2.ttl_seconds = T ∧ t ≤ p.2.created_at ∧ p.2.created_at < t + ks.length ∧
      p.2.last_accessed = p.2.created_at := by
  intro ks
  induction ks with
  | nil => intro t p hp; simp [entriesFor] at hp
  | cons k ks' ih =>
    intro t p hp
    simp only [entriesFor, List.mem_cons] at hp
    rcases hp with rfl | hp
    · simp only [List.length_cons]
      refine ⟨?_, ?_, ?_, ?_⟩ <;> first | trivial | omega
    · obtain ⟨h1, h2, h3, h4⟩ := ih (t + 1) p hp
      simp only [List.length_cons]
      exact ⟨h1, by omega, by omega, h4⟩

theorem setSeq_fresh (md5hex : String → String) (v : α) (ttl : Option ℤ) :
    ∀ (ks : List String) (st : Cache α) (t : ℤ),
      st.cache.length + ks.length ≤ st.max_size →
      (∀ p ∈ st.cache, t + ks.length ≤ p.2.created_at + p.2.ttl_seconds) →
      (ks.length : ℤ) ≤ resolveTtl st ttl →
      ((st.cache.map Prod.fst) ++ ks.map (generate_key md5hex)).Nodup →
      setSeq md5hex st t ks v ttl =
        { st with cache := st.cache ++ entriesFor md5hex (resolveTtl st ttl) v t ks } := by
  intro ks
  induction ks with
  | nil =>
    intro st t _ _ _ _
    obtain ⟨ms, dt, c⟩ := st
    simp [setSeq, entriesFor]
  | cons k ks' ih =>
    intro st t hlen hexp httl hnodup
    have hclean : cleanup_expired t st.cache = st.cache := by
      apply cleanup_keep_all
      intro p hp
      have := hexp p hp
      simp only [List.length_cons] at this
      simp only [CacheEntry.is_expired, decide_eq_false_iff_not, not_lt]
      omega
    have hfresh : generate_key md5hex k ∉ st.cache.map Prod.fst := by
      intro hmem
      obtain ⟨_, _, hdisj⟩ := List.nodup_append.mp hnodup
      exact hdisj hmem (by simp)
    have hlt : st.cache.length < st.max_size := by
      simp only [List.length_cons] at hlen; omega
    have hstep : cacheSet md5hex st t k v ttl =
        (true, { st with cache :=
          st.cache ++ [(generate_key md5hex k, ⟨v, t, resolveTtl st ttl, 0, t⟩)] }) := by
      simp only [cacheSet, hclean, evict_lru, if_pos hlt]
      rw [setAssoc_append_of_absent st.cache _ _ hfresh]
    have hset : setSeq md5hex st t (k :: ks') v ttl =
        setSeq md5hex (cacheSet md5hex st t k v ttl).2 (t + 1) ks' v ttl := rfl
    rw [hset, hstep]
    have hres : resolveTtl ({ st with cache :=
        st.cache ++ [(generate_key md5hex k, ⟨v, t, resolveTtl st ttl, 0, t⟩)] } : Cache α) ttl
        = resolveTtl st ttl := rfl
    rw [ih _ (t + 1) ?hl ?he ?ht ?hn]
    case hl =>
      simp only [List.length_cons] at hlen
      simp only [List.length_append, List.length_cons, List.length_nil]
      omega
    case he =>
      intro p hp
      rcases List.mem_append.mp hp with hp | hp
      · have := hexp p hp
        simp only [List.length_cons] at this
        omega
      · simp only [List.mem_singleton] at hp
        subst hp
        simp only [List.length_cons] at httl
        push_cast at httl ⊢
        omega
    case ht =>
      rw [hres]
      simp only [List.length_cons] at httl
      push_cast at httl ⊢
      omega
    case hn =>
      simp only [List.map_append, List.map_cons, List.map_nil]
      rw [List.append_assoc]
      simpa using hnodup
    rw [hres]
    simp only [entriesFor, List.append_assoc, List.singleton_append]

/-- C7.  LRU eviction: starting from an empty cache of capacity
`max_size ≥ 1`, inserting `max_size + 1` keys that are distinct after
normalization, one tick apart (none touched again between inserts) and with
a TTL large enough that nothing expires: exactly one entry is evicted (the
final size is `max_size`), the evicted entry is the first-inserted one —
the one with the smallest `last_accessed` — and every other key is still
present.  In addition, for ANY cache contents, the entry `_evict_lru`
selects has a `last_accessed` no larger than that of every entry that
remains, so a more recently accessed entry is never evicted while a less
recently accessed one is present. -/
theorem lru_eviction {α : Type} (md5hex : String → String) (v : α) (ttl : Option ℤ)
    (st : Cache α) (k0 : String) (krest : List String) (t0 : ℤ)
    (hmax : 1 ≤ st.max_size) (hempty : st.cache = []) (hlen : krest.length = st.max_size)
    (hnodup : ((k0 :: krest).map (generate_key md5hex)).Nodup)
    (httl : (((k0 :: krest).length : Nat) : ℤ) ≤ resolveTtl st ttl) :
    (setSeq md5hex st t0 (k0 :: krest) v ttl).cache.length = st.max_size ∧
    lookupC (setSeq md5hex st t0 (k0 :: krest) v ttl).cache (generate_key md5hex k0) = none ∧
    (∀ k ∈ krest, (lookupC (setSeq md5hex st t0 (k0 :: krest) v ttl).cache
      (generate_key md5hex k)).isSome = true) ∧
    (∀ (c : List (String × CacheEntry α)) (p : String × CacheEntry α),
      lruMin c = some p → ∀ q ∈ c, p.2.last_accessed ≤ q.2.last_accessed) := by
  have hne : krest ≠ [] := by
    intro h; subst h; simp at hlen; omega
  have hdec : krest.dropLast ++ [krest.getLast hne] = krest := List.dropLast_append_getLast hne
  have hTmax : ((st.max_size : Nat) : ℤ) + 1 ≤ resolveTtl st ttl := by
    simp only [List.length_cons] at httl
    push_cast at httl ⊢
    omega
  have hinitlen : (k0 :: krest.dropLast).length = st.max_size := by
    simp only [List.length_cons, List.length_dropLast]
    have : 1 ≤ krest.length := by
      cases krest with
      | nil => exact absurd rfl hne
      | cons a b => simp
    omega
  have hsub : ((k0 :: krest.dropLast).map (generate_key md5hex)).Sublist
      (((k0 :: krest)).map (generate_key md5hex)) :=
    List.Sublist.map _ (List.Sublist.cons₂ k0 (List.dropLast_sublist krest))
  have hS : setSeq md5hex st t0 (k0 :: krest.dropLast) v ttl =
      { st with cache := entriesFor md5hex (resolveTtl st ttl) v t0 (k0 :: krest.dropLast) } := by
    have h := setSeq_fresh md5hex v ttl (k0 :: krest.dropLast) st t0
      (by rw [hempty]; simp [hinitlen]) (by rw [hempty]; simp)
      (by rw [hinitlen]; omega)
      (by rw [hempty]; simpa using hnodup.sublist hsub)
    rw [hempty] at h
    simpa using h
  have hrun : setSeq md5hex st t0 (k0 :: krest) v ttl =
      (cacheSet md5hex (setSeq md5hex st t0 (k0 :: krest.dropLast) v ttl)
        (t0 + (k0 :: krest.dropLast).length) (krest.getLast hne) v ttl).2 := by
    conv_lhs => rw [show (k0 :: krest) = (k0 :: krest.dropLast) ++ [krest.getLast hne] by
      rw [List.cons_append, hdec]]
    rw [setSeq_append]
    rfl
  -- the cache built by the first max_size inserts
  have hE : entriesFor md5hex (resolveTtl st ttl) v t0 (k0 :: krest.dropLast) =
      (generate_key md5hex k0, ⟨v, t0, resolveTtl st ttl, 0, t0⟩) ::
        entriesFor md5hex (resolveTtl st ttl) v (t0 + 1) krest.dropLast := rfl
  have hElen : (entriesFor md5hex (resolveTtl st ttl) v t0 (k0 :: krest.dropLast)).length
      = st.max_size := by
    rw [entriesFor_length]; exact hinitlen
  have hclean : cleanup_expired (t0 + (k0 :: krest.dropLast).length)
      (entriesFor md5hex (resolveTtl st ttl) v t0 (k0 :: krest.dropLast)) =
      entriesFor md5hex (resolveTtl st ttl) v t0 (k0 :: krest.dropLast) := by
    apply cleanup_keep_all
    intro p hp
    obtain ⟨h1, h2, h3, h4⟩ := entriesFor_mem md5hex (resolveTtl st ttl) v _ t0 p hp
    simp only [CacheEntry.is_expired, decide_eq_false_iff_not, not_lt, h1]
    rw [hinitlen]
    push_cast at hTmax ⊢
    omega
  have hlru : lruMin (entriesFor md5hex (resolveTtl st ttl) v t0 (k0 :: krest.dropLast)) =
      some (generate_key md5hex k0, ⟨v, t0, resolveTtl st ttl, 0, t0⟩) := by
    rw [hE]
    apply lruMin_head_strict
    intro q hq
    obtain ⟨h1, h2, h3, h4⟩ := entriesFor_mem md5hex (resolveTtl st ttl) v _ (t0 + 1) q hq
    simp only []
    omega
  have hdel : delAssoc (entriesFor md5hex (resolveTtl st ttl) v t0 (k0 :: krest.dropLast))
      (generate_key md5hex k0) =
      entriesFor md5hex (resolveTtl st ttl) v (t0 + 1) krest.dropLast := by
    rw [hE]
    simp [delAssoc]
  have htailkeys : (entriesFor md5hex (resolveTtl st ttl) v (t0 + 1) krest.dropLast).map
      Prod.fst = krest.dropLast.map (generate_key md5hex) := entriesFor_keys _ _ _ _ _
  have hkrestnodup : (krest.map (generate_key md5hex)).Nodup :=
    (List.nodup_cons.mp (by simpa using hnodup)).2
  have hlastfresh : generate_key md5hex (krest.getLast hne) ∉
      krest.dropLast.map (generate_key md5hex) := by
    have hkeq : krest.dropLast.map (generate_key md5hex) ++
        [generate_key md5hex (krest.getLast hne)] = krest.map (generate_key md5hex) := by
      rw [show [generate_key md5hex (krest.getLast hne)] =
          [krest.getLast hne].map (generate_key md5hex) from rfl, ← List.map_append, hdec]
    have := hkrestnodup
    rw [← hkeq] at this
    obtain ⟨_, _, hdisj⟩ := List.nodup_append.mp this
    intro hmem
    exact hdisj hmem (by simp)
  have hfinal : (setSeq md5hex st t0 (k0 :: krest) v ttl).cache =
      entriesFor md5hex (resolveTtl st ttl) v (t0 + 1) krest.dropLast ++
        [(generate_key md5hex (krest.getLast hne),
          ⟨v, t0 + (k0 :: krest.dropLast).length, resolveTtl st ttl, 0,
            t0 + (k0 :: krest.dropLast).length⟩)] := by
    have hev : evict_lru st.max_size
        (entriesFor md5hex (resolveTtl st ttl) v t0 (k0 :: krest.dropLast)) =
        some (entriesFor md5hex (resolveTtl st ttl) v (t0 + 1) krest.dropLast) := by
      unfold evict_lru
      rw [hElen, if_neg (by omega), hlru]
      simp only [Option.map]
      rw [hdel]
    rw [hrun, hS]
    simp only [cacheSet, hclean, hev]
    rw [setAssoc_append_of_absent _ _ _ (by rw [htailkeys]; exact hlastfresh)]
    rfl
  have hfinalkeys : ((setSeq md5hex st t0 (k0 :: krest) v ttl).cache.map Prod.fst) =
      krest.map (generate_key md5hex) := by
    rw [hfinal]
    simp only [List.map_append, htailkeys, List.map_cons, List.map_nil]
    rw [show ([generate_key md5hex (krest.getLast hne)] : List String) =
        [krest.getLast hne].map (generate_key md5hex) from rfl, ← List.map_append, hdec]
  refine ⟨?_, ?_, ?_, ?_⟩
  · rw [hfinal]
    simp only [List.length_append, entriesFor_length, List.length_dropLast,
      List.length_cons, List.length_nil]
    have : 1 ≤ krest.length := by
      cases krest with
      | nil => exact absurd rfl hne
      | cons a b => simp
    omega
  · apply lookupC_eq_none
    rw [hfinalkeys]
    exact (List.nodup_cons.mp (by simpa using hnodup)).1
  · intro k hk
    apply lookupC_isSome_of_mem
    rw [hfinalkeys]
    exact List.mem_map_of_mem _ hk
  · intro c p h
    exact (lruMin_spec c p h).2

/-- Witness for `lru_eviction`: capacity 2, keys `"a"`, `"b"`, `"c"`
inserted at ticks 0, 1, 2; `"a"` is evicted, `"b"` survives. -/
theorem lru_eviction_witness :
    (setSeq (fun _ => "H") (⟨2, 300, []⟩ : Cache Nat) 0 ["a", "b", "c"] 0 none).cache.length = 2 ∧
    lookupC (setSeq (fun _ => "H") (⟨2, 300, []⟩ : Cache Nat) 0 ["a", "b", "c"] 0 none).cache
      (generate_key (fun _ => "H") "a") = none ∧
    (lookupC (setSeq (fun _ => "H") (⟨2, 300, []⟩ : Cache Nat) 0 ["a", "b", "c"] 0 none).cache
      (generate_key (fun _ => "H") "b")).isSome = true := by
  have T := lru_eviction (fun _ => "H") (0 : Nat) none (⟨2, 300, []⟩ : Cache Nat)
    "a" ["b", "c"] 0 (by decide) rfl (by decide) (by decide) (by decide)
  exact ⟨T.1, T.2.1, T.2.2.1 "b" (by decide)⟩

/-- Lowercasing fixes every whitespace character. -/
theorem lowerChar_ws (c : Char) (h : isPySpace c = true) : lowerChar c = c := by
  simp only [isPySpace, decide_eq_true_eq] at h
  rcases h with rfl | rfl | rfl | rfl | rfl | rfl <;> decide

theorem dropWhile_append_allP (p : Char → Bool) :
    ∀ (u x : List Char), (∀ c ∈ u, p c = true) →
      List.dropWhile p (u ++ x) = List.dropWhile p x := by
  intro u
  induction u with
  | nil => intro x _; rfl
  | cons c u' ih =>
    intro x hu
    rw [List.cons_append, List.dropWhile_cons_of_pos (hu c (by simp))]
    exact ih x (fun d hd => hu d (by simp [hd]))

theorem dropWhile_allP (p : Char → Bool) (u : List Char) (hu : ∀ c ∈ u, p c = true) :
    List.dropWhile p u = [] := by
  have := dropWhile_append_allP p u [] hu
  simpa using this

theorem dropWhile_append_of_ne_nil (p : Char → Bool) :
    ∀ (a b : List Char), List.dropWhile p a ≠ [] →
      List.dropWhile p (a ++ b) = List.dropWhile p a ++ b := by
  intro a
  induction a with
  | nil => intro b h; exact absurd rfl h
  | cons c a' ih =>
    intro b h
    by_cases hp : p c = true
    · rw [List.dropWhile_cons_of_pos hp] at h
      rw [List.cons_append, List.dropWhile_cons_of_pos hp, List.dropWhile_cons_of_pos hp]
      exact ih b h
    · have hp' : p c = false := by revert hp; cases p c <;> simp
      rw [List.cons_append, List.dropWhile_cons_of_neg (by simp [hp']),
        List.dropWhile_cons_of_neg (by simp [hp'])]
      simp

/-- Stripping ignores surrounding all-whitespace padding. -/
theorem stripList_pad (u w x : List Char) (hu : ∀ c ∈ u, isPySpace c = true)
    (hw : ∀ c ∈ w, isPySpace c = true) : stripList (u ++ x ++ w) = stripList x := by
  unfold stripList
  rw [List.append_assoc, dropWhile_append_allP isPySpace u (x ++ w) hu]
  by_cases hx : List.dropWhile isPySpace x = []
  · have hallx : ∀ c ∈ x, isPySpace c = true := fun c hc =>
      List.dropWhile_eq_nil_iff.mp hx c hc
    have hxw : List.dropWhile isPySpace (x ++ w) = [] := by
      apply dropWhile_allP
      intro c hc
      rcases List.mem_append.mp hc with h | h
      · exact hallx c h
      · exact hw c h
    rw [hx, hxw]
  · rw [dropWhile_append_of_ne_nil isPySpace x w hx, List.reverse_append,
      dropWhile_append_allP isPySpace w.reverse _ (fun c hc => hw c (List.mem_reverse.mp hc))]

theorem evict_lru_total {α : Type} (maxSize : Nat) (c : List (String × CacheEntry α))
    (h : 1 ≤ maxSize) : ∃ c2, evict_lru maxSize c = some c2 := by
  unfold evict_lru
  split_ifs with hlt
  · exact ⟨c, rfl⟩
  · cases c with
    | nil => simp at hlt; omega
    | cons p rest =>
      refine ⟨delAssoc (p :: rest)
        (rest.foldl (fun best q =>
          if q.2.last_accessed < best.2.last_accessed then q else best) p).1, ?_⟩
      rfl

/-- C10.  Cache key normalization and aliasing: (1) for keys of at most 200
characters, `set(K, v)` followed at the same instant by `get(K')` returns
`v` whenever `K` and `K'` normalize (lowercase + strip) to the same string,
on any cache of positive capacity with a non-negative resolved TTL;
(2) two such colliding keys written from an empty cache share ONE cache
entry, keyed by the normalized string, holding the second value (the first
is overwritten); (3) a key longer than 200 characters is replaced by its
MD5 hex digest (the `md5hex` parameter); (4) surrounding whitespace does
not change the normalization, and (5) neither does letter case (two
character lists equal pointwise after lowercasing normalize identically) —
so keys differing only in case or surrounding whitespace alias the same
entry. -/
theorem cache_key_normalization {α : Type} :
    (∀ (md5hex : String → String) (st : Cache α) (now : ℤ) (k k' : String) (v : α)
        (ttl : Option ℤ), 1 ≤ st.max_size → k.length ≤ 200 → k'.length ≤ 200 →
        pyStripLower k = pyStripLower k' → 0 ≤ resolveTtl st ttl →
        (cacheGet md5hex (cacheSet md5hex st now k v ttl).2 now k').1 = some v) ∧
    (∀ (md5hex : String → String) (maxS : Nat) (dttl : ℤ) (now : ℤ) (k k' : String)
        (v w : α) (ttl ttl' : Option ℤ), 1 ≤ maxS → k.length ≤ 200 → k'.length ≤ 200 →
        pyStripLower k = pyStripLower k' →
        0 ≤ resolveTtl (⟨maxS, dttl, []⟩ : Cache α) ttl →
        (cacheSet md5hex (cacheSet md5hex (⟨maxS, dttl, []⟩ : Cache α) now k v ttl).2
          now k' w ttl').2.cache =
          [(pyStripLower k',
            ⟨w, now, resolveTtl (⟨maxS, dttl, []⟩ : Cache α) ttl', 0, now⟩)]) ∧
    (∀ (md5hex : String → String) (k : String), 200 < k.length →
      generate_key md5hex k = md5hex k) ∧
    (∀ (u w : List Char) (k : String), (∀ c ∈ u, isPySpace c = true) →
      (∀ c ∈ w, isPySpace c = true) →
      pyStripLower ⟨u ++ k.data ++ w⟩ = pyStripLower k) ∧
    (∀ (l1 l2 : List Char), List.Forall₂ (fun c d => lowerChar c = lowerChar d) l1 l2 →
      pyStripLower ⟨l1⟩ = pyStripLower ⟨l2⟩) := by
  refine ⟨?_, ?_, ?_, ?_, ?_⟩
  · intro md5hex st now k k' v ttl hmax hk hk' hnorm httl
    have hgk : generate_key md5hex k = pyStripLower k := by
      unfold generate_key; rw [if_neg (by omega)]
    have hgk' : generate_key md5hex k' = pyStripLower k' := by
      unfold generate_key; rw [if_neg (by omega)]
    obtain ⟨c2, hev⟩ := evict_lru_total st.max_size (cleanup_expired now st.cache) hmax
    have hset : (cacheSet md5hex st now k v ttl).2 =
        { st with
          cache := setAssoc c2 (generate_key md5hex k)
            ⟨v, now, resolveTtl st ttl, 0, now⟩ } := by
      simp only [cacheSet, hev]
    have hlook : lookupC (setAssoc c2 (generate_key md5hex k)
          (⟨v, now, resolveTtl st ttl, 0, now⟩ : CacheEntry α)) (generate_key md5hex k')
        = some ⟨v, now, resolveTtl st ttl, 0, now⟩ := by
      rw [hgk', ← hnorm, ← hgk]
      exact lookup_setAssoc_self _ _ _
    have hexp : (⟨v, now, resolveTtl st ttl, 0, now⟩ : CacheEntry α).is_expired now = false := by
      simp only [CacheEntry.is_expired, decide_eq_false_iff_not, not_lt]
      omega
    simp only [cacheGet, hset, hlook, hexp]
    rfl
  · intro md5hex maxS dttl now k k' v w ttl ttl' hmax hk hk' hnorm httl
    have hgk : generate_key md5hex k = pyStripLower k := by
      unfold generate_key; rw [if_neg (by omega)]
    have hgk' : generate_key md5hex k' = pyStripLower k' := by
      unfold generate_key; rw [if_neg (by omega)]
    have h1 : (cacheSet md5hex (⟨maxS, dttl, []⟩ : Cache α) now k v ttl).2 =
        ⟨maxS, dttl, [(generate_key md5hex k,
          ⟨v, now, resolveTtl (⟨maxS, dttl, []⟩ : Cache α) ttl, 0, now⟩)]⟩ := by
      have hev : evict_lru maxS ([] : List (String × CacheEntry α)) = some [] := by
        unfold evict_lru
        rw [if_pos (by simpa using hmax)]
      simp only [cacheSet, cleanup_expired, List.filter_nil, hev]
      rfl
    rw [h1]
    have hclean : cleanup_expired now [(generate_key md5hex k,
        (⟨v, now, resolveTtl (⟨maxS, dttl, []⟩ : Cache α) ttl, 0, now⟩ : CacheEntry α))] =
        [(generate_key md5hex k,
          ⟨v, now, resolveTtl (⟨maxS, dttl, []⟩ : Cache α) ttl, 0, now⟩)] := by
      apply cleanup_keep_all
      intro p hp
      simp only [List.mem_singleton] at hp
      subst hp
      simp only [CacheEntry.is_expired, decide_eq_false_iff_not, not_lt]
      omega
    rcases Nat.lt_or_ge 1 maxS with hcase | hcase
    · have hev : evict_lru maxS [(generate_key md5hex k,
          (⟨v, now, resolveTtl (⟨maxS, dttl, []⟩ : Cache α) ttl, 0, now⟩ : CacheEntry α))] =
          some [(generate_key md5hex k,
            ⟨v, now, resolveTtl (⟨maxS, dttl, []⟩ : Cache α) ttl, 0, now⟩)] := by
        unfold evict_lru
        rw [if_pos (by simpa using hcase)]
      simp only [cacheSet, hclean, hev]
      simp only [setAssoc]
      rw [if_pos (by rw [hgk, hgk']; exact hnorm), hgk']
      rfl
    · have hmax1 : maxS = 1 := by omega
      subst hmax1
      have hev : evict_lru 1 [(generate_key md5hex k,
          (⟨v, now, resolveTtl (⟨1, dttl, []⟩ : Cache α) ttl, 0, now⟩ : CacheEntry α))] =
          some [] := by
        unfold evict_lru
        rw [if_neg (by simp)]
        simp [lruMin, delAssoc]
      simp only [cacheSet, hclean, hev]
      simp only [setAssoc]
      rw [hgk']
      rfl
  · intro md5hex k h
    unfold generate_key
    rw [if_pos h]
  · intro u w k hu hw
    have hu' : ∀ c ∈ u.map lowerChar, isPySpace c = true := by
      intro c hc
      obtain ⟨d, hd, rfl⟩ := List.mem_map.mp hc
      rw [lowerChar_ws d (hu d hd)]
      exact hu d hd
    have hw' : ∀ c ∈ w.map lowerChar, isPySpace c = true := by
      intro c hc
      obtain ⟨d, hd, rfl⟩ := List.mem_map.mp hc
      rw [lowerChar_ws d (hw d hd)]
      exact hw d hd
    unfold pyStripLower
    simp only [List.map_append]
    exact congrArg String.mk (stripList_pad _ _ _ hu' hw')
  · intro l1 l2 h
    have hmap : l1.map lowerChar = l2.map lowerChar := by
      induction h with
      | nil => rfl
      | cons hcd _ ih => simp only [List.map_cons, ih, hcd]
    unfold pyStripLower
    rw [hmap]

/-- Witness for `cache_key_normalization`: `set("  TaskList  ", 42)` then
`get("tasklist")` at the same instant returns 42, and a 201-character key is
replaced by the digest. -/
theorem cache_key_normalization_witness :
    (cacheGet (fun _ => "H")
      (cacheSet (fun _ => "H") (⟨2, 300, []⟩ : Cache Nat) 0 "  TaskList  " 42 none).2
      0 "tasklist").1 = some 42 ∧
    generate_key (fun _ => "H") (⟨List.replicate 201 'z'⟩ : String) = "H" := by
  have T := cache_key_normalization (α := Nat)
  refine ⟨T.1 (fun _ => "H") ⟨2, 300, []⟩ 0 "  TaskList  " "tasklist" 42 none
    (by decide) (by decide) (by decide) (by decide) (by decide), ?_⟩
  exact T.2.2.1 (fun _ => "H") ⟨List.replicate 201 'z'⟩ (by decide)

/-! ## Executable string comparison

Python compares strings lexicographically by code point.  Lean's builtin
`String.ltb` does not reduce in the kernel, so the embedding uses its own
executable comparison `strLtb`, proved equivalent to the `<` order on
`String`. -/

def listLtb : List Char → List Char → Bool
  | [], [] => false
  | [], _ :: _ => true
  | _ :: _, [] => false
  | a :: u, b :: v => if a < b then true else if b < a then false else listLtb u v

/-- Executable code-point lexicographic comparison, modelling Python `<` on
strings. -/
def strLtb (s t : String) : Bool := listLtb s.data t.data

theorem listLtb_iff_lt : ∀ u v : List Char, listLtb u v = true ↔ u < v := by
  intro u
  induction u with
  | nil =>
    intro v
    cases v with
    | nil =>
      simp only [listLtb]
      constructor
      · intro h; exact absurd h (by simp)
      · intro h; cases h
    | cons b v' =>
      simp only [listLtb]
      exact ⟨fun _ => List.Lex.nil, fun _ => trivial⟩
  | cons a u' ih =>
    intro v
    cases v with
    | nil =>
      simp only [listLtb]
      constructor
      · intro h; exact absurd h (by simp)
      · intro h; cases h
    | cons b v' =>
      simp only [listLtb]
      by_cases hab : a < b
      · rw [if_pos hab]
        exact ⟨fun _ => List.Lex.rel hab, fun _ => rfl⟩
      · rw [if_neg hab]
        by_cases hba : b < a
        · rw [if_pos hba]
          constructor
          · intro h; exact absurd h (by simp)
          · intro h
            cases h with
            | rel h' => exact absurd h' hab
            | cons h' => exact absurd hba (lt_irrefl a)
        · rw [if_neg hba]
          have hb : a = b := le_antisymm (le_of_not_lt hba) (le_of_not_lt hab)
          subst hb
          rw [ih v']
          constructor
          · intro h; exact List.Lex.cons h
          · intro h
            cases h with
            | rel h' => exact absurd h' hab
            | cons h' => exact h'

theorem strLtb_iff_lt (s t : String) : strLtb s t = true ↔ s < t := by
  rw [String.lt_iff_toList_lt]
  exact listLtb_iff_lt s.data t.data

theorem strLtb_eq_false_iff (s t : String) : strLtb s t = false ↔ ¬ (s < t) := by
  rw [← strLtb_iff_lt]
  cases strLtb s t <;> simp

/-! ## Idempotency stores (src/storage/state.py)

File I/O is modelled by an explicit read outcome; `datetime.now()` is the
explicit `now : YMD` parameter.  Python dicts keyed by date strings are
insertion-ordered association lists with unique keys. -/

/-- Parse an all-digits decimal string, as `int(s)` does on the canonical
inputs (signs, surrounding whitespace and underscores are not modelled; no
claim depends on them). -/
def digitsToNat? (l : List Char) : Option Nat :=
  match l with
  | [] => none
  | _ => l.foldl (fun acc c => acc.bind (fun n => (digitVal? c).map (fun d => n * 10 + d))) (some 0)

/-- Character-list splitting on a dash, with the semantics of Python
`s.split("-")` (an empty string gives one empty field). -/
def splitOnDash : List Char → List (List Char)
  | [] => [[]]
  | c :: rest =>
    let r := splitOnDash rest
    if c = '-' then [] :: r
    else
      match r with
      | [] => [[c]]
      | h :: t => (c :: h) :: t

/-- The date parse inside `purge_older_than`: `d_str.split("-")` must give
exactly three integer fields forming a valid `date` (anything else raises
and the entry is kept). -/
def parseDateLoose (s : String) : Option YMD :=
  match splitOnDash s.data with
  | [ys, ms, ds] =>
    match digitsToNat? ys, digitsToNat? ms, digitsToNat? ds with
    | some y, some m, some d => if validYMD ⟨y, m, d⟩ then some ⟨y, m, d⟩ else none
    | _, _, _ => none
  | _ => none

/-- The date prefix of an idempotency key: `chave.split("|", 1)[0]`
(implemented over the character list so that it reduces in the kernel). -/
def dayOfKey (chave : String) : String := ⟨chave.data.takeWhile (fun c => c ≠ '|')⟩

/-- Embedding of `already_sent(key)` over the loaded `entries` list. -/
def already_sent (key : String) (entries : List String) : Bool :=
  decide (key ∈ entries)

/-- Keep-predicate of `purge_older_than(days)` for one entry: parse the date
prefix; on any failure keep the entry; otherwise keep iff
`(today - kd).days <= days`. -/
def purgeKeeps (today : YMD) (days : Int) (k : String) : Bool :=
  match parseDateLoose (dayOfKey k) with
  | none => true
  | some kd => decide (daysFromCivil today - daysFromCivil kd ≤ days)

/-- Embedding of `purge_older_than(days)` (state.py lines 51-72) on the flat
store: entries failing the keep-predicate are dropped (the final
save-if-changed does not alter the resulting state). -/
def purge_older_than (today : YMD) (days : Int) (entries : List String) : List String :=
  entries.filter (purgeKeeps today days)

/-- The v2 store: the `sent_today` mapping from `YYYY-MM-DD` strings to the
lists of keys sent that day (`metadata` carries no claim-relevant state). -/
structure V2State where
  sentToday : List (String × List String)
deriving DecidableEq

def lookupS : List (String × List String) → String → Option (List String)
  | [], _ => none
  | (d, ks) :: rest, dia => if d = dia then some ks else lookupS rest dia

/-- Embedding of `NotificationStateStorage.get_sent_today` (state.py lines
112-117). -/
def get_sent_today (st : V2State) (chave : String) : Bool :=
  decide (chave ∈ ((lookupS st.sentToday (dayOfKey chave)).getD []))

/-- The `if dia not in self._data["sent_today"]` initialisation: a missing
bucket is created empty at the end of the dict. -/
def ensureBucket (bs : List (String × List String)) (dia : String) :
    List (String × List String) :=
  if (lookupS bs dia).isSome then bs else bs ++ [(dia, [])]

/-- The duplicate-avoiding append into the day bucket. -/
def appendKeyToBucket : List (String × List String) → String → String →
    List (String × List String)
  | [], _, _ => []
  | (d, ks) :: rest, dia, chave =>
    if d = dia then (d, if chave ∈ ks then ks else ks ++ [chave]) :: rest
    else (d, ks) :: appendKeyToBucket rest dia chave

/-- The cutoff string of `_cleanup_old_dates`:
`(datetime.now() - timedelta(days=7)).strftime('%Y-%m-%d')`. -/
def cutoffStr (now : YMD) : String := fmtYMD (subDays now 7)

/-- Embedding of `NotificationStateStorage._cleanup_old_dates` (state.py
lines 136-153): buckets whose key string is lexicographically smaller than
the cutoff string are deleted. -/
def cleanup_old_dates (now : YMD) (bs : List (String × List String)) :
    List (String × List String) :=
  bs.filter (fun p => ! strLtb p.1 (cutoffStr now))

/-- Embedding of `NotificationStateStorage.mark_sent_today` (state.py lines
119-134): ensure the day bucket, append the key if absent, then run the
automatic cleanup (the save is I/O). -/
def mark_sent_today (now : YMD) (st : V2State) (chave : String) : V2State :=
  let dia := dayOfKey chave
  ⟨cleanup_old_dates now (appendKeyToBucket (ensureBucket st.sentToday dia) dia chave)⟩

/-- Embedding of `marcar_envios_bem_sucedidos(envios_realizados)` (state.py
lines 185-190): mark only the pairs with `sucesso = True`. -/
def marcar_envios_bem_sucedidos (now : YMD) (envios : List (String × Bool))
    (st : V2State) : V2State :=
  envios.foldl (fun st p => if p.2 then mark_sent_today now st p.1 else st) st

/-- Outcome of reading the backing JSON file. -/
inductive ReadOutcome (β : Type) where
  | missing
  | ioError
  | badJson
  | parsed (val : β)

/-- A parsed flat-store document: the `entries` key may be absent (other
top-level keys are ignored). -/
structure FlatRaw where
  entries : Option (List String)

/-- Embedding of `load_state()` (state.py lines 26-35): a missing file is
created as `{"entries": []}` by `_ensure_file`, an unreadable file or
invalid JSON takes the `except` branch returning `{"entries": []}` (a
parsed document of the wrong shape raises inside the `try` and lands there
too), and a parsed document gets `entries` defaulted to `[]`. -/
def load_state : ReadOutcome FlatRaw → List String
  | .missing => []
  | .ioError => []
  | .badJson => []
  | .parsed raw => raw.entries.getD []

/-- A parsed v2 document: the `sent_today` key may be absent. -/
structure V2Raw where
  sent_today : Option (List (String × List String))

/-- Embedding of `NotificationStateStorage._load_state` (state.py lines
90-98): a missing file, an I/O error or invalid JSON all yield the fresh
empty state; the `.get("sent_today", {})` defaulting done at every access
is folded into the parsed case. -/
def v2_load_state : ReadOutcome V2Raw → V2State
  | .missing => ⟨[]⟩
  | .ioError => ⟨[]⟩
  | .badJson => ⟨[]⟩
  | .parsed raw => ⟨raw.sent_today.getD []⟩

/-- C9.  Fail-open on unreadable state: a missing, unreadable or
invalid-JSON backing file makes both loaders return the empty state rather
than raising (they are total functions), and on that empty state every
idempotency membership query answers `false`, so a corrupted store cannot
abort the cycle nor mark anything as already sent. -/
theorem fail_open_on_unreadable_state :
    (load_state ReadOutcome.missing = [] ∧ load_state ReadOutcome.ioError = [] ∧
      load_state ReadOutcome.badJson = []) ∧
    (∀ key : String, already_sent key (load_state ReadOutcome.missing) = false ∧
      already_sent key (load_state ReadOutcome.ioError) = false ∧
      already_sent key (load_state ReadOutcome.badJson) = false) ∧
    (v2_load_state ReadOutcome.missing = ⟨[]⟩ ∧ v2_load_state ReadOutcome.ioError = ⟨[]⟩ ∧
      v2_load_state ReadOutcome.badJson = ⟨[]⟩) ∧
    (∀ key : String, get_sent_today (v2_load_state ReadOutcome.missing) key = false ∧
      get_sent_today (v2_load_state ReadOutcome.ioError) key = false ∧
      get_sent_today (v2_load_state ReadOutcome.badJson) key = false) := by
  refine ⟨⟨rfl, rfl, rfl⟩, ?_, ⟨rfl, rfl, rfl⟩, ?_⟩
  · intro key
    refine ⟨?_, ?_, ?_⟩ <;> simp [already_sent, load_state]
  · intro key
    refine ⟨?_, ?_, ?_⟩ <;> simp [get_sent_today, v2_load_state, lookupS, dayOfKey]

/-! ## Claim C1: mark-on-success idempotency -/

theorem lookupS_append_other (dia d : String) (l0 : List String) (h : d ≠ dia) :
    ∀ bs : List (String × List String), lookupS (bs ++ [(dia, l0)]) d = lookupS bs d := by
  intro bs
  induction bs with
  | nil => simp [lookupS]; exact fun he => h he.symm
  | cons p rest ih =>
    obtain ⟨k, ks⟩ := p
    by_cases he : k = d
    · simp [lookupS, he]
    · simp only [List.cons_append, lookupS, if_neg he]
      exact ih

theorem lookupS_append_self (dia : String) (l0 : List String) :
    ∀ bs : List (String × List String), lookupS bs dia = none →
      lookupS (bs ++ [(dia, l0)]) dia = some l0 := by
  intro bs
  induction bs with
  | nil => intro _; simp [lookupS]
  | cons p rest ih =>
    obtain ⟨k, ks⟩ := p
    intro h
    simp only [lookupS] at h
    by_cases he : k = dia
    · rw [if_pos he] at h; exact absurd h (by simp)
    · rw [if_neg he] at h
      simp only [List.cons_append, lookupS, if_neg he]
      exact ih h

theorem lookupS_ensure_other (bs : List (String × List String)) (dia d : String) (h : d ≠ dia) :
    lookupS (ensureBucket bs dia) d = lookupS bs d := by
  unfold ensureBucket
  split_ifs
  · rfl
  · exact lookupS_append_other dia d [] h bs

theorem lookupS_appendKey_self (dia chave : String) :
    ∀ (bs : List (String × List String)) (l : List String), lookupS bs dia = some l →
      lookupS (appendKeyToBucket bs dia chave) dia =
        some (if chave ∈ l then l else l ++ [chave]) := by
  intro bs
  induction bs with
  | nil => intro l h; simp [lookupS] at h
  | cons p rest ih =>
    obtain ⟨k, ks⟩ := p
    intro l h
    simp only [lookupS] at h
    by_cases he : k = dia
    · rw [if_pos he] at h
      injection h with h
      subst h
      simp only [appendKeyToBucket, if_pos he, lookupS]
    · rw [if_neg he] at h
      simp only [appendKeyToBucket, if_neg he, lookupS]
      exact ih l h

theorem lookupS_appendKey_other (dia chave d : String) (h : d ≠ dia) :
    ∀ bs : List (String × List String),
      lookupS (appendKeyToBucket bs dia chave) d = lookupS bs d := by
  intro bs
  induction bs with
  | nil => rfl
  | cons p rest ih =>
    obtain ⟨k, ks⟩ := p
    by_cases he : k = dia
    · have hkd : ¬ (k = d) := by rw [he]; exact fun hh => h hh.symm
      simp only [appendKeyToBucket, if_pos he, lookupS, if_neg hkd]
    · simp only [appendKeyToBucket, if_neg he, lookupS]
      by_cases hkd : k = d
      · rw [if_pos hkd, if_pos hkd]
      · rw [if_neg hkd, if_neg hkd]
        exact ih

theorem lookupS_filterKey (q : String → Bool) (dia : String) (h : q dia = true) :
    ∀ bs : List (String × List String),
      lookupS (bs.filter (fun p => q p.1)) dia = lookupS bs dia := by
  intro bs
  induction bs with
  | nil => rfl
  | cons p rest ih =>
    obtain ⟨k, ks⟩ := p
    by_cases he : k = dia
    · subst he
      rw [List.filter_cons_of_pos (by simpa using h)]
      simp [lookupS]
    · by_cases hq : q k = true
      · rw [List.filter_cons_of_pos (by simpa using hq)]
        simp only [lookupS, if_neg he]
        exact ih
      · rw [List.filter_cons_of_neg (by simpa using hq)]
        simp only [lookupS, if_neg he]
        exact ih

/-- The cleanup inside `mark_sent_today` is `lookupS_filterKey` material. -/
theorem lookupS_cleanup (now : YMD) (bs : List (String × List String)) (dia : String)
    (h : ¬ (dia < cutoffStr now)) :
    lookupS (cleanup_old_dates now bs) dia = lookupS bs dia := by
  unfold cleanup_old_dates
  exact lookupS_filterKey (fun s => ! strLtb s (cutoffStr now)) dia
    (by simp [strLtb_eq_false_iff, h]) bs

/-- Marking a key whose date prefix survives the 7-day cleanup makes it
queryable. -/
theorem get_mark_self (now : YMD) (st : V2State) (chave : String)
    (h : ¬ (dayOfKey chave < cutoffStr now)) :
    get_sent_today (mark_sent_today now st chave) chave = true := by
  unfold get_sent_today mark_sent_today
  rw [lookupS_cleanup now _ (dayOfKey chave) h]
  cases hcase : lookupS st.sentToday (dayOfKey chave) with
  | none =>
    have hens : lookupS (ensureBucket st.sentToday (dayOfKey chave)) (dayOfKey chave)
        = some [] := by
      unfold ensureBucket
      rw [if_neg (by simp [hcase])]
      exact lookupS_append_self _ _ _ hcase
    rw [lookupS_appendKey_self _ _ _ _ hens]
    simp
  | some l =>
    have hens : lookupS (ensureBucket st.sentToday (dayOfKey chave)) (dayOfKey chave)
        = some l := by
      unfold ensureBucket
      rw [if_pos (by simp [hcase])]
      exact hcase
    rw [lookupS_appendKey_self _ _ _ _ hens]
    by_cases hmem : chave ∈ l
    · simp [hmem]
    · simp [hmem]

/-- A key already marked stays marked under any further mark whose cleanup
cutoff does not pass the key's date. -/
theorem get_mark_other (now : YMD) (st : V2State) (chave chave' : String)
    (h : ¬ (dayOfKey chave < cutoffStr now)) (hg : get_sent_today st chave = true) :
    get_sent_today (mark_sent_today now st chave') chave = true := by
  unfold get_sent_today at hg ⊢
  unfold mark_sent_today
  rw [lookupS_cleanup now _ (dayOfKey chave) h]
  by_cases hd : dayOfKey chave' = dayOfKey chave
  · obtain ⟨l, hl⟩ : ∃ l, lookupS st.sentToday (dayOfKey chave) = some l := by
      cases hcase : lookupS st.sentToday (dayOfKey chave) with
      | none => rw [hcase] at hg; simp at hg
      | some l => exact ⟨l, rfl⟩
    have hmem : chave ∈ l := by rw [hl] at hg; simpa using hg
    have hens : lookupS (ensureBucket st.sentToday (dayOfKey chave')) (dayOfKey chave')
        = some l := by
      unfold ensureBucket
      rw [hd, if_pos (by simp [hl])]
      exact hl
    rw [← hd, lookupS_appendKey_self _ _ _ _ hens]
    by_cases hmem' : chave' ∈ l
    · simp [hmem', hmem]
    · simp [hmem', List.mem_append, hmem]
  · rw [lookupS_appendKey_other (dayOfKey chave') chave' (dayOfKey chave)
      (fun he => hd he.symm), lookupS_ensure_other _ (dayOfKey chave') (dayOfKey chave)
      (fun he => hd he.symm)]
    exact hg

/-- C1 (counterexample).  The claim "marking (K, succeeded=true) makes
wasSentToday(K) true" fails for a key whose date bucket is older than the
7-day cleanup cutoff: marking `"2000-01-01|ana|t1"` on 2025-10-12 leaves
`get_sent_today` false, because `mark_sent_today` runs
`_cleanup_old_dates` before saving and that purge deletes the bucket just
written. -/
theorem mark_idempotency_counterexample :
    get_sent_today
      (marcar_envios_bem_sucedidos ⟨2025, 10, 12⟩ [("2000-01-01|ana|t1", true)] ⟨[]⟩)
      "2000-01-01|ana|t1" = false ∧
    ("2000-01-01|ana|t1", true) ∈ [("2000-01-01|ana|t1", (true : Bool))] := by
  refine ⟨by decide, by decide⟩

/-- C1 (amended).  Mark-on-success idempotency: (1) an invocation of
`marcar_envios_bem_sucedidos` whose pairs all carry `succeeded = false`
leaves the state completely unchanged — in particular `get_sent_today K`
stays false; (2) invoking it with `(K, true)` makes `get_sent_today K` true
PROVIDED K's date prefix is not lexicographically before the automatic
7-day cleanup cutoff of the marking instant; (3) once true, it stays true
under every later invocation whose cleanup cutoff still does not pass K's
date (i.e. until the purge removes K's date bucket, which is exactly what
the counterexample exhibits). -/
theorem mark_on_success_idempotency :
    (∀ (now : YMD) (st : V2State) (envios : List (String × Bool)),
      (∀ p ∈ envios, p.2 = false) → marcar_envios_bem_sucedidos now envios st = st) ∧
    (∀ (now : YMD) (st : V2State) (chave : String),
      ¬ (dayOfKey chave < cutoffStr now) →
      get_sent_today (marcar_envios_bem_sucedidos now [(chave, true)] st) chave = true) ∧
    (∀ (now : YMD) (chave : String) (envios : List (String × Bool)) (st : V2State),
      get_sent_today st chave = true → ¬ (dayOfKey chave < cutoffStr now) →
      get_sent_today (marcar_envios_bem_sucedidos now envios st) chave = true) := by
  refine ⟨?_, ?_, ?_⟩
  · intro now st envios
    induction envios generalizing st with
    | nil => intro _; rfl
    | cons p rest ih =>
      intro hall
      have hp : p.2 = false := hall p (by simp)
      unfold marcar_envios_bem_sucedidos
      simp only [List.foldl_cons, hp]
      exact ih st (fun q hq => hall q (by simp [hq]))
  · intro now st chave h
    have : marcar_envios_bem_sucedidos now [(chave, true)] st =
        mark_sent_today now st chave := rfl
    rw [this]
    exact get_mark_self now st chave h
  · intro now chave envios
    induction envios with
    | nil => intro st hg _; exact hg
    | cons p rest ih =>
      intro st hg h
      unfold marcar_envios_bem_sucedidos
      simp only [List.foldl_cons]
      cases hp : p.2 with
      | false =>
        simp only [Bool.false_eq_true, if_false]
        exact ih st hg h
      | true =>
        simp only [if_true]
        exact ih (mark_sent_today now st p.1) (get_mark_other now st chave p.1 h hg) h

/-- Witness for `mark_on_success_idempotency` on concrete inputs dated
2025-10-12. -/
theorem mark_on_success_idempotency_witness :
    marcar_envios_bem_sucedidos ⟨2025, 10, 12⟩ [("2025-10-12|a|t", false)] ⟨[]⟩ = ⟨[]⟩ ∧
    get_sent_today
      (marcar_envios_bem_sucedidos ⟨2025, 10, 12⟩ [("2025-10-12|a|t", true)] ⟨[]⟩)
      "2025-10-12|a|t" = true ∧
    get_sent_today
      (marcar_envios_bem_sucedidos ⟨2025, 10, 12⟩ [("2025-10-12|b|u", true)]
        ⟨[("2025-10-12", ["2025-10-12|a|t"])]⟩) "2025-10-12|a|t" = true := by
  have T := mark_on_success_idempotency
  refine ⟨T.1 ⟨2025, 10, 12⟩ ⟨[]⟩ [("2025-10-12|a|t", false)] (by decide), ?_, ?_⟩
  · exact T.2.1 ⟨2025, 10, 12⟩ ⟨[]⟩ "2025-10-12|a|t"
      (by rw [← strLtb_eq_false_iff]; decide)
  · exact T.2.2 ⟨2025, 10, 12⟩ "2025-10-12|a|t" [("2025-10-12|b|u", true)]
      ⟨[("2025-10-12", ["2025-10-12|a|t"])]⟩ (by decide)
      (by rw [← strLtb_eq_false_iff]; decide)

/-! ## Claim C8: purge retention boundary

The v2 cleanup compares `YYYY-MM-DD` strings lexicographically, so the
boundary facts need monotonicity of `fmtYMD` across a one-day step. -/

theorem digit_lt : ∀ y : Nat, y < 10 → ∀ x : Nat, x < y → digitChar x < digitChar y := by
  decide

theorem digitChar_mod (a : Nat) : digitChar (a % 10) = digitChar a := by
  unfold digitChar
  congr 1
  omega

theorem lex_append_same (p : List Char) :
    ∀ u v : List Char, u < v → p ++ u < p ++ v := by
  induction p with
  | nil => intro u v h; simpa using h
  | cons c p' ih => intro u v h; exact List.Lex.cons (ih u v h)

theorem lex_append_eqlen :
    ∀ u v x y : List Char, u.length = v.length → u < v → u ++ x < v ++ y := by
  intro u
  induction u with
  | nil =>
    intro v x y hl h
    cases v with
    | nil => cases h
    | cons b v' => simp at hl
  | cons a u' ih =>
    intro v x y hl h
    cases v with
    | nil => simp at hl
    | cons b v' =>
      cases h with
      | rel hab => exact List.Lex.rel hab
      | cons h' => exact List.Lex.cons (ih v' x y (by simpa using hl) h')

theorem pad2_mono (a b : Nat) (hab : a < b) (hb : b < 100) : pad2 a < pad2 b := by
  unfold pad2
  rcases Nat.lt_or_ge (a / 10) (b / 10) with h | h
  · exact List.Lex.rel (digit_lt (b / 10) (by omega) (a / 10) h)
  · have hdiv : a / 10 = b / 10 := by omega
    rw [hdiv]
    apply List.Lex.cons
    rw [← digitChar_mod a, ← digitChar_mod b]
    exact List.Lex.rel (digit_lt (b % 10) (by omega) (a % 10) (by omega))

theorem pad4_eq (y : Nat) : pad4 y = pad2 (y / 100) ++ pad2 (y % 100) := by
  have e1 : digitChar (y / 100 / 10) = digitChar (y / 1000) := by
    unfold digitChar; congr 1; omega
  have e2 : digitChar (y % 100 / 10) = digitChar (y / 10) := by
    unfold digitChar; congr 1; omega
  have e3 : digitChar (y % 100) = digitChar y := by
    unfold digitChar; congr 1; omega
  simp [pad4, pad2, e1, e2, e3]

theorem pad4_mono (a b : Nat) (hab : a < b) (hb : b < 10000) : pad4 a < pad4 b := by
  rw [pad4_eq a, pad4_eq b]
  rcases Nat.lt_or_ge (a / 100) (b / 100) with h | h
  · exact lex_append_eqlen _ _ _ _ (by simp [pad2]) (pad2_mono (a / 100) (b / 100) h (by omega))
  · have hdiv : a / 100 = b / 100 := by omega
    rw [hdiv]
    exact lex_append_same _ _ _ (pad2_mono (a % 100) (b % 100) (by omega) (by omega))

theorem daysInMonth_pos (y m : Nat) : 1 ≤ daysInMonth y m := by
  unfold daysInMonth
  split_ifs <;> omega

theorem daysInMonth_le (y m : Nat) : daysInMonth y m ≤ 31 := by
  unfold daysInMonth
  split_ifs <;> omega

theorem prevDay_y (t : YMD) : t.y - 1 ≤ (prevDay t).y ∧ (prevDay t).y ≤ t.y := by
  unfold prevDay
  split_ifs <;> simp

theorem validYMD_decomp (t : YMD) (hv : validYMD t = true) :
    1 ≤ t.y ∧ t.y ≤ 9999 ∧ 1 ≤ t.m ∧ t.m ≤ 12 ∧ 1 ≤ t.d ∧ t.d ≤ daysInMonth t.y t.m := by
  simp only [validYMD, Bool.and_eq_true, decide_eq_true_eq] at hv
  omega

theorem validYMD_prevDay (t : YMD) (hv : validYMD t = true) (hy : 2 ≤ t.y) :
    validYMD (prevDay t) = true := by
  obtain ⟨h1, h2, h3, h4, h5, h6⟩ := validYMD_decomp t hv
  unfold prevDay
  split_ifs with hd hm
  · simp only [validYMD, Bool.and_eq_true, decide_eq_true_eq]
    refine ⟨⟨⟨⟨⟨?_, ?_⟩, ?_⟩, ?_⟩, ?_⟩, ?_⟩ <;> omega
  · have hp := daysInMonth_pos t.y (t.m - 1)
    simp only [validYMD, Bool.and_eq_true, decide_eq_true_eq]
    refine ⟨⟨⟨⟨⟨?_, ?_⟩, ?_⟩, ?_⟩, ?_⟩, ?_⟩ <;> omega
  · have h31 : daysInMonth (t.y - 1) 12 = 31 := by unfold daysInMonth; norm_num
    simp only [validYMD, Bool.and_eq_true, decide_eq_true_eq]
    refine ⟨⟨⟨⟨⟨?_, ?_⟩, ?_⟩, ?_⟩, ?_⟩, ?_⟩ <;> omega

theorem subDays_valid : ∀ (n : Nat) (t : YMD), validYMD t = true → n + 1 ≤ t.y →
    validYMD (subDays t n) = true ∧ t.y - n ≤ (subDays t n).y := by
  intro n
  induction n with
  | zero =>
    intro t hv _
    refine ⟨hv, ?_⟩
    simp only [subDays]
    omega
  | succ k ih =>
    intro t hv hy
    have hpv := validYMD_prevDay t hv (by omega)
    have hpy := prevDay_y t
    have hih := ih (prevDay t) hpv (by omega)
    refine ⟨hih.1, ?_⟩
    have hstep : subDays t (k + 1) = subDays (prevDay t) k := rfl
    rw [hstep]
    omega

theorem subDays_prevDay : ∀ (n : Nat) (t : YMD), subDays t (n + 1) = prevDay (subDays t n) := by
  intro n
  induction n with
  | zero => intro t; rfl
  | succ k ih =>
    intro t
    show subDays (prevDay t) (k + 1) = prevDay (subDays t (k + 1))
    rw [ih (prevDay t)]
    rfl

theorem fmt_prevDay_lt (t : YMD) (hv : validYMD t = true) (hy : 2 ≤ t.y) :
    fmtYMD (prevDay t) < fmtYMD t := by
  obtain ⟨h1, h2, h3, h4, h5, h6⟩ := validYMD_decomp t hv
  have h31 := daysInMonth_le t.y t.m
  rw [String.lt_iff_toList_lt]
  show (fmtYMD (prevDay t)).data < (fmtYMD t).data
  unfold fmtYMD prevDay
  split_ifs with hd hm
  · apply lex_append_same
    apply List.Lex.cons
    apply lex_append_same
    apply List.Lex.cons
    exact pad2_mono (t.d - 1) t.d (by omega) (by omega)
  · apply lex_append_same
    apply List.Lex.cons
    exact lex_append_eqlen _ _ _ _ (by simp [pad2])
      (pad2_mono (t.m - 1) t.m (by omega) (by omega))
  · exact lex_append_eqlen _ _ _ _ (by simp [pad4])
      (pad4_mono (t.y - 1) t.y (by omega) (by omega))

/-- C8 (counterexample).  The clause "entries whose date prefix does not
parse are retained" fails for the v2 store: `_cleanup_old_dates` compares
bucket keys lexicographically with the cutoff string, so the unparseable
bucket `"!bad"` (which sorts before `"2025-10-05"`) is deleted on
2025-10-12. -/
theorem purge_retention_counterexample :
    parseDateLoose "!bad" = none ∧
    cleanup_old_dates ⟨2025, 10, 12⟩ [("!bad", ["!bad|x|1"])] = [] := by
  exact ⟨rfl, by decide⟩

/-- C8 (amended).  Purge retention boundary: (1) on the flat store, for
every retention window `days`, an entry whose parsed date prefix is exactly
`days` days before today is retained by `purge_older_than`, one dated
`days + 1` days before today is removed, and an entry whose prefix does not
parse is retained; (2) on the v2 store, the bucket keyed exactly 7 days
before now (the cutoff string itself) is retained by `_cleanup_old_dates`;
(3) the bucket keyed 8 days before now is removed (for any current date of
year 9..9999).  Unparseable v2 buckets are NOT always retained: they are
kept only when they do not sort lexicographically before the cutoff (see
the counterexample). -/
theorem purge_retention_boundary :
    (∀ (today : YMD) (days : Int) (entries : List String) (k : String),
      k ∈ entries →
      (∀ kd : YMD, parseDateLoose (dayOfKey k) = some kd →
        (daysFromCivil today - daysFromCivil kd = days →
          k ∈ purge_older_than today days entries) ∧
        (daysFromCivil today - daysFromCivil kd = days + 1 →
          k ∉ purge_older_than today days entries)) ∧
      (parseDateLoose (dayOfKey k) = none → k ∈ purge_older_than today days entries)) ∧
    (∀ (now : YMD) (bs : List (String × List String)),
      lookupS (cleanup_old_dates now bs) (cutoffStr now) =
        lookupS bs (cutoffStr now)) ∧
    (∀ (now : YMD) (bs : List (String × List String)) (ks : List String),
      validYMD now = true → 9 ≤ now.y →
      (fmtYMD (subDays now 8), ks) ∉ cleanup_old_dates now bs) := by
  refine ⟨?_, ?_, ?_⟩
  · intro today days entries k hk
    constructor
    · intro kd hparse
      constructor
      · intro hdelta
        apply List.mem_filter.mpr
        refine ⟨hk, ?_⟩
        simp only [purgeKeeps, hparse, decide_eq_true_eq]
        omega
      · intro hdelta hmem
        have := (List.mem_filter.mp hmem).2
        simp only [purgeKeeps, hparse, decide_eq_true_eq] at this
        omega
    · intro hparse
      apply List.mem_filter.mpr
      refine ⟨hk, ?_⟩
      simp [purgeKeeps, hparse]
  · intro now bs
    exact lookupS_cleanup now bs (cutoffStr now) (lt_irrefl _)
  · intro now bs ks hv hy hmem
    have hlt : fmtYMD (subDays now 8) < cutoffStr now := by
      have h7 := subDays_valid 7 now hv (by omega)
      rw [show (8 : Nat) = 7 + 1 from rfl, subDays_prevDay 7 now]
      exact fmt_prevDay_lt (subDays now 7) h7.1 (by omega)
    have := (List.mem_filter.mp hmem).2
    simp only [Bool.not_eq_true'] at this
    rw [strLtb_eq_false_iff] at this
    exact this hlt

/-- Witness for `purge_retention_boundary` on 2025-10-12 with the default
7-day window. -/
theorem purge_retention_boundary_witness :
    "2025-10-05|a|1" ∈
      purge_older_than ⟨2025, 10, 12⟩ 7 ["2025-10-05|a|1", "2025-10-04|a|1"] ∧
    "2025-10-04|a|1" ∉
      purge_older_than ⟨2025, 10, 12⟩ 7 ["2025-10-05|a|1", "2025-10-04|a|1"] ∧
    (fmtYMD (subDays ⟨2025, 10, 12⟩ 8), ["x"]) ∉
      cleanup_old_dates ⟨2025, 10, 12⟩ [("2025-10-04", ["x"])] := by
  have T := purge_retention_boundary
  refine ⟨?_, ?_, ?_⟩
  · exact ((T.1 ⟨2025, 10, 12⟩ 7 _ _ (by decide)).1 ⟨2025, 10, 5⟩ (by decide)).1 (by decide)
  · exact ((T.1 ⟨2025, 10, 12⟩ 7 _ _ (by decide)).1 ⟨2025, 10, 4⟩ (by decide)).2 (by decide)
  · exact T.2.2 ⟨2025, 10, 12⟩ [("2025-10-04", ["x"])] ["x"] (by decide) (by decide)
